import Mathlib

/-!
Verification of the pixyelator pixelation pipeline.

The development shallowly embeds the pipeline of `src/index.js` and
`src/innerWorker.js` (plus the single-pass downsample worker kept in the
repository) and proves or refutes the specified properties:

* the per-axis partition (`individualSectionWidths` / `individualSectionHeights`);
* the outer/inner orientation choice (`shouldAllocateByRows`);
* the per-cell RGBA averaging (`getSingleRGBA`) and cell painting of the
  stripe worker, including the CSS `rgba()` color-string semantics;
* the synchronous argument validation of `pixelate`;
* the task queue / worker pool scheduler (`nextQueue` / `processInnerSlice`),
  including its failure behaviour;
* the compositing of finished stripes onto the destination canvas.

Machine integers do not overflow in any modelled routine (all quantities are
small non-negative integers), so numbers are embedded as `ℕ`. The floating
point expressions of the source — the partition increment index
`Math.floor(i * (N / r))` and the grayscale luminance — are evaluated in
IEEE-754 binary64: `fl` rounds a rational to the nearest double (53-bit
significand, ties to even), and each source-level operation is rounded.
The exact-rational readings (`incIndex`, `luminance`) are kept alongside to
compare the spec's formulas against the double computation.
-/

namespace Pixyelator

/-! ### Partitioner

`_pixelateElementToCanvas` builds, for each axis, a list of `N` section
sizes: every entry starts at `Math.floor(D / N)` and then, for
`i = 0 .. D % N - 1`, the entry at index `Math.floor(i * (N / (D % N)))`
is incremented (src/index.js lines 196-214). -/

/-- The remainder pixels of an axis: `width % xPixels` (src/index.js line 195). -/
def remainderPixels (D N : ℕ) : ℕ := D % N

/-- The initial array `Array.from({length: N}, () => Math.floor(D / N))`
(src/index.js lines 198-200). -/
def baseSections (D N : ℕ) : List ℕ := List.replicate N (D / N)

/-- The exact-rational reading of the spec's increment index formula
`⌊i * N / r⌋`. The program computes `Math.floor(i * (N / remainder))`
(src/index.js line 202) in IEEE-754 doubles; that bit-exact version is
`incIndexJS` below, and the two differ at some inputs
(`increment_formula_float_counterexample`). -/
def incIndex (N r i : ℕ) : ℕ := ⌊(i : ℚ) * ((N : ℚ) / (r : ℚ))⌋₊

/-- One pass of the remainder loop: `individualSections[incIndex]++`. -/
def bumpAt (l : List ℕ) (j : ℕ) : List ℕ := l.set j (l.getD j 0 + 1)

/-- The per-axis partition under the exact-rational increment index: `N`
entries of `⌊D/N⌋`, the entry at index `incIndex` incremented for each
`i < D % N`. The bit-exact binary64 partition the program computes is
`sectionSizesJS` below; the two agree whenever `D % N = 0` (no increments
run) and always have the same length and sum, which is all the orientation,
scheduler and raster development below depends on. -/
def sectionSizes (D N : ℕ) : List ℕ :=
  (List.range (remainderPixels D N)).foldl
    (fun l i => bumpAt l (incIndex N (remainderPixels D N) i)) (baseSections D N)

/-- `individualSectionWidths` (src/index.js lines 198-205). -/
def individualSectionWidths (width xPixels : ℕ) : List ℕ := sectionSizes width xPixels

/-- `individualSectionHeights` (src/index.js lines 207-214). -/
def individualSectionHeights (height yPixels : ℕ) : List ℕ := sectionSizes height yPixels

theorem incIndex_eq_div (N r i : ℕ) : incIndex N r i = i * N / r := by
  unfold incIndex
  rcases Nat.eq_zero_or_pos r with hr | hr
  · subst hr; simp
  · rw [mul_div_assoc']
    rw [show ((i : ℚ) * N) = ((i * N : ℕ) : ℚ) by push_cast; ring]
    rw [Nat.floor_div_nat, Nat.floor_natCast]

theorem incIndex_lt (N r i : ℕ) (hN : 0 < N) (hi : i < r) : incIndex N r i < N := by
  rw [incIndex_eq_div]
  apply Nat.div_lt_of_lt_mul
  have : i * N < r * N := by
    exact Nat.mul_lt_mul_of_lt_of_le hi (le_refl N) hN
  omega

theorem incIndex_strictMono (N r : ℕ) (hrN : r < N) (hr : 0 < r) :
    StrictMono (fun i => incIndex N r i) := by
  have h : ∀ i, incIndex N r i < incIndex N r (i + 1) := by
    intro i
    rw [incIndex_eq_div, incIndex_eq_div]
    have h2 : i * N / r * r ≤ i * N := Nat.div_mul_le_self _ _
    have h1 : (i * N / r + 1) * r ≤ (i + 1) * N := by
      have e1 : (i * N / r + 1) * r = i * N / r * r + r := by ring
      have e2 : (i + 1) * N = i * N + N := by ring
      omega
    have h3 := (Nat.le_div_iff_mul_le hr).mpr h1
    omega
  exact strictMono_nat_of_lt_succ h

theorem length_bumpAt (l : List ℕ) (j : ℕ) : (bumpAt l j).length = l.length := by
  simp [bumpAt]

theorem length_sectionSizes (D N : ℕ) : (sectionSizes D N).length = N := by
  unfold sectionSizes
  have h : ∀ (is : List ℕ) (l : List ℕ),
      (is.foldl (fun l i => bumpAt l (incIndex N (remainderPixels D N) i)) l).length
        = l.length := by
    intro is
    induction is with
    | nil => intro l; rfl
    | cons a as ih => intro l; rw [List.foldl_cons, ih, length_bumpAt]
  rw [h]
  simp [baseSections]

/-- The list of indices that receive one extra pixel each: the loop body
targets `incIndex N r i` for `i = 0 .. r - 1`. -/
def incTargets (N r : ℕ) : List ℕ := (List.range r).map (fun i => incIndex N r i)

theorem getD_bumpAt (l : List ℕ) (j k : ℕ) :
    (bumpAt l j).getD k 0
      = if k = j ∧ j < l.length then l.getD k 0 + 1 else l.getD k 0 := by
  unfold bumpAt
  by_cases h : k = j ∧ j < l.length
  · obtain ⟨rfl, h2⟩ := h
    rw [if_pos ⟨rfl, h2⟩]
    simp [List.getD_eq_getElem?_getD, List.getElem?_set, h2]
  · rw [if_neg h]
    by_cases hkj : k = j
    · subst hkj
      have h2 : ¬ k < l.length := fun hc => h ⟨rfl, hc⟩
      simp [List.getD_eq_getElem?_getD, List.getElem?_set, h2]
      rw [List.getElem?_eq_none (le_of_not_lt h2)]
      rfl
    · have hne : j ≠ k := fun hc => hkj hc.symm
      simp [List.getD_eq_getElem?_getD, List.getElem?_set, hne]

theorem getD_foldl_bump (N' r' : ℕ) (is : List ℕ) :
    ∀ (l : List ℕ) (j : ℕ), (∀ i ∈ is, incIndex N' r' i < l.length) →
      ((is.foldl (fun l i => bumpAt l (incIndex N' r' i)) l).getD j 0)
        = l.getD j 0 + is.countP (fun i => incIndex N' r' i == j) := by
  induction is with
  | nil => intro l j _; simp
  | cons a as ih =>
    intro l j hbound
    rw [List.foldl_cons]
    rw [ih (bumpAt l (incIndex N' r' a)) j
      (fun i hi => by rw [length_bumpAt]; exact hbound i (List.mem_cons_of_mem _ hi))]
    rw [getD_bumpAt, List.countP_cons]
    have ha : incIndex N' r' a < l.length := hbound a (List.mem_cons_self _ _)
    by_cases hj : incIndex N' r' a = j
    · rw [if_pos ⟨hj.symm, ha⟩]
      simp [hj]
      omega
    · rw [if_neg (fun hc => hj hc.1.symm)]
      simp [hj]

theorem incTargets_nodup (N r : ℕ) (hrN : r < N) : (incTargets N r).Nodup := by
  rcases Nat.eq_zero_or_pos r with hr | hr
  · subst hr; simp [incTargets]
  · exact List.Nodup.map (incIndex_strictMono N r hrN hr).injective (List.nodup_range r)

theorem mem_incTargets_lt (N r j : ℕ) (hN : 0 < N)
    (hj : j ∈ incTargets N r) : j < N := by
  obtain ⟨i, hi, rfl⟩ := List.mem_map.mp hj
  exact incIndex_lt N r i hN (List.mem_range.mp hi)

theorem length_incTargets (N r : ℕ) : (incTargets N r).length = r := by
  simp [incTargets]

theorem sectionSizes_getD (D N : ℕ) (hN : 0 < N) (j : ℕ) (hj : j < N) :
    (sectionSizes D N).getD j 0
      = D / N + (if j ∈ incTargets N (D % N) then 1 else 0) := by
  unfold sectionSizes
  have hrem : remainderPixels D N = D % N := rfl
  rw [getD_foldl_bump]
  · have hbase : (baseSections D N).getD j 0 = D / N := by
      unfold baseSections
      rw [List.getD_eq_getElem (l := List.replicate N (D / N)) 0
        (by simpa using hj)]
      simp
    rw [hbase, hrem]
    congr 1
    have hcount : (List.range (D % N)).countP
        (fun i => incIndex N (D % N) i == j) = List.count j (incTargets N (D % N)) := by
      unfold incTargets
      rw [List.count, List.countP_map]
      rfl
    rw [hcount]
    by_cases hmem : j ∈ incTargets N (D % N)
    · rw [if_pos hmem,
        List.count_eq_one_of_mem (incTargets_nodup N (D % N) (Nat.mod_lt D hN)) hmem]
    · rw [if_neg hmem, List.count_eq_zero_of_not_mem hmem]
  · intro i hi
    unfold baseSections
    rw [List.length_replicate, hrem]
    exact incIndex_lt N (D % N) i hN (List.mem_range.mp hi)

theorem list_sum_eq_getD (l : List ℕ) :
    l.sum = ∑ j ∈ Finset.range l.length, l.getD j 0 := by
  induction l with
  | nil => simp
  | cons a as ih =>
    rw [List.sum_cons, List.length_cons, Finset.sum_range_succ']
    simp only [List.getD_cons_succ, List.getD_cons_zero]
    rw [← ih]
    omega

theorem sectionSizes_sum (D N : ℕ) (hN : 0 < N) : (sectionSizes D N).sum = D := by
  rw [list_sum_eq_getD, length_sectionSizes]
  have hcong : ∀ j ∈ Finset.range N, (sectionSizes D N).getD j 0
      = D / N + (if j ∈ incTargets N (D % N) then 1 else 0) := by
    intro j hj
    exact sectionSizes_getD D N hN j (Finset.mem_range.mp hj)
  rw [Finset.sum_congr rfl hcong, Finset.sum_add_distrib, Finset.sum_const,
    Finset.card_range, smul_eq_mul]
  have hfilter : (Finset.range N).filter (fun j => j ∈ incTargets N (D % N))
      = (incTargets N (D % N)).toFinset := by
    ext j
    simp only [Finset.mem_filter, Finset.mem_range, List.mem_toFinset]
    constructor
    · exact fun h => h.2
    · intro h
      exact ⟨mem_incTargets_lt N (D % N) j hN h, h⟩
  rw [Finset.sum_boole, hfilter,
    List.toFinset_card_of_nodup (incTargets_nodup N (D % N) (Nat.mod_lt D hN)),
    length_incTargets]
  simp only [Nat.cast_id]
  have := Nat.div_add_mod D N
  omega

theorem mem_sectionSizes (D N e : ℕ) (he : e ∈ sectionSizes D N) :
    ∃ j, j < N ∧ (sectionSizes D N).getD j 0 = e := by
  obtain ⟨j, hj, hval⟩ := List.mem_iff_getElem.mp he
  rw [length_sectionSizes] at hj
  refine ⟨j, hj, ?_⟩
  rw [List.getD_eq_getElem (sectionSizes D N) 0 (by rw [length_sectionSizes]; exact hj)]
  exact hval

/-- The remainder fold with the floor index rewritten to natural division,
used to evaluate partitions on concrete inputs. -/
theorem sectionSizes_eq_divFold (D N : ℕ) :
    sectionSizes D N = (List.range (D % N)).foldl
      (fun l i => bumpAt l (i * N / (D % N))) (List.replicate N (D / N)) := by
  unfold sectionSizes remainderPixels baseSections
  congr 1
  funext l i
  rw [incIndex_eq_div]


/-! ### IEEE-754 binary64 rounding -/

/-- Round a non-negative rational to the nearest integer, ties to even:
the rounding used by IEEE-754 binary64 arithmetic. -/
def rne (s : ℚ) : ℕ :=
  if s - ⌊s⌋₊ < 1 / 2 then ⌊s⌋₊
  else if 1 / 2 < s - ⌊s⌋₊ then ⌊s⌋₊ + 1
  else if ⌊s⌋₊ % 2 = 0 then ⌊s⌋₊ else ⌊s⌋₊ + 1

/-- The binary exponent of a positive rational: `2 ^ ulpExp q` is the weight
of the least significand bit of the binary64 value nearest `q`. -/
def ulpExp (q : ℚ) : ℤ := Int.log 2 q - 52

/-- `q` scaled so that its 53-bit significand becomes an integer part. -/
def flScaled (q : ℚ) : ℚ := q * (2 : ℚ) ^ (-ulpExp q)

/-- Round a rational to the nearest IEEE-754 binary64 value (53-bit
significand, round to nearest, ties to even). The exponent is unbounded:
none of the modelled expressions comes near overflow or subnormals. A
non-positive argument only arises as an exact zero in the modelled
expressions, where the double result is zero as well. -/
def fl (q : ℚ) : ℚ :=
  if q ≤ 0 then 0 else (rne (flScaled q) : ℚ) * (2 : ℚ) ^ ulpExp q

theorem fl_zero : fl 0 = 0 := by simp [fl]

theorem fl_of_nonpos (q : ℚ) (hq : q ≤ 0) : fl q = 0 := by
  simp [fl, hq]

theorem rne_eq_of_lo (s : ℚ) (m : ℕ) (h1 : (m : ℚ) ≤ s) (h2 : s < (m : ℚ) + 1 / 2) :
    rne s = m := by
  have hs : 0 ≤ s := le_trans (by positivity) h1
  have hfloor : ⌊s⌋₊ = m := by
    rw [Nat.floor_eq_iff hs]
    exact ⟨h1, by linarith⟩
  unfold rne
  rw [hfloor, if_pos (by linarith)]

theorem rne_eq_of_hi (s : ℚ) (m : ℕ) (hm : 1 ≤ m)
    (h1 : (m : ℚ) - 1 / 2 < s) (h2 : s ≤ (m : ℚ)) : rne s = m := by
  rcases eq_or_lt_of_le h2 with heq | hlt
  · exact rne_eq_of_lo s m (le_of_eq heq.symm) (by rw [heq]; linarith)
  · have hmq : ((m - 1 : ℕ) : ℚ) = (m : ℚ) - 1 := by
      push_cast [Nat.cast_sub hm]
      ring
    have hs : 0 ≤ s := by
      have : (1 : ℚ) ≤ (m : ℚ) := by exact_mod_cast hm
      linarith
    have hfloor : ⌊s⌋₊ = m - 1 := by
      rw [Nat.floor_eq_iff hs, hmq]
      constructor
      · linarith
      · linarith
    unfold rne
    rw [hfloor, hmq]
    rw [if_neg (by linarith), if_pos (by linarith)]
    omega

theorem rne_le (s : ℚ) (hs : 0 ≤ s) : (rne s : ℚ) ≤ s + 1 / 2 := by
  have hlo : (⌊s⌋₊ : ℚ) ≤ s := Nat.floor_le hs
  have hup : s < ⌊s⌋₊ + 1 := Nat.lt_floor_add_one s
  unfold rne
  split_ifs with h1 h2 h3
  · linarith
  · push_cast
    linarith
  · push_cast
    linarith
  · push_cast
    linarith

theorem le_rne (s : ℚ) (hs : 0 ≤ s) : s - 1 / 2 ≤ (rne s : ℚ) := by
  have hlo : (⌊s⌋₊ : ℚ) ≤ s := Nat.floor_le hs
  have hup : s < ⌊s⌋₊ + 1 := Nat.lt_floor_add_one s
  unfold rne
  split_ifs with h1 h2 h3
  · linarith
  · push_cast
    linarith
  · push_cast
    linarith
  · push_cast
    linarith

theorem int_log_eq_of (q : ℚ) (e : ℤ) (hq : 0 < q)
    (h1 : (2 : ℚ) ^ e ≤ q) (h2 : q < (2 : ℚ) ^ (e + 1)) : Int.log 2 q = e := by
  have hb : 1 < 2 := one_lt_two
  have hcast : ((2 : ℕ) : ℚ) = (2 : ℚ) := by norm_num
  have hle : e ≤ Int.log 2 q := by
    rw [← Int.zpow_le_iff_le_log hb hq, hcast]
    exact h1
  have hlt : Int.log 2 q < e + 1 := by
    rw [← Int.lt_zpow_iff_log_lt hb hq, hcast]
    exact h2
  omega

theorem two_zpow_pos (a : ℤ) : (0 : ℚ) < 2 ^ a := zpow_pos (by norm_num) a

theorem two_zpow_sub (a b : ℤ) : (2 : ℚ) ^ (a - b) = 2 ^ a / 2 ^ b := by
  rw [zpow_sub₀ (by norm_num : (2 : ℚ) ≠ 0)]

/-- Characterisation of `fl` when the value rounds down (or is exact):
if `m / 2 ^ w` with a full 53-bit significand `m` satisfies
`m ≤ q * 2 ^ w < m + 1/2` then `fl q = m / 2 ^ w`. -/
theorem fl_eq_down (q : ℚ) (m w : ℕ) (hm1 : 2 ^ 52 ≤ m) (hm2 : m < 2 ^ 53)
    (h1 : (m : ℚ) ≤ q * 2 ^ w) (h2 : q * 2 ^ w < (m : ℚ) + 1 / 2) :
    fl q = (m : ℚ) / 2 ^ w := by
  have hw : (0 : ℚ) < 2 ^ w := by positivity
  have hm1q : (2 : ℚ) ^ (52 : ℕ) ≤ (m : ℚ) := by exact_mod_cast hm1
  have hm2q : (m : ℚ) < 2 ^ (53 : ℕ) := by exact_mod_cast hm2
  have hq : 0 < q := by
    have h0 : (0 : ℚ) < (m : ℚ) := lt_of_lt_of_le (by positivity) hm1q
    nlinarith
  have hm2s : (m : ℚ) + 1 ≤ 2 ^ (53 : ℕ) := by
    have : m + 1 ≤ 2 ^ 53 := hm2
    exact_mod_cast this
  have hlog : Int.log 2 q = 52 - w := by
    apply int_log_eq_of q (52 - w) hq
    · have hzp : (2 : ℚ) ^ ((52 : ℤ) - (w : ℤ)) = 2 ^ (52 : ℕ) / 2 ^ (w : ℕ) := by
        rw [two_zpow_sub, show ((2 : ℚ) ^ (52 : ℤ)) = 2 ^ (52 : ℕ) from by norm_num,
          zpow_natCast]
      rw [hzp, div_le_iff₀ hw]
      linarith
    · have hzp : (2 : ℚ) ^ ((52 : ℤ) - (w : ℤ) + 1) = 2 ^ (53 : ℕ) / 2 ^ (w : ℕ) := by
        rw [show (52 : ℤ) - (w : ℤ) + 1 = 53 - (w : ℤ) from by ring, two_zpow_sub,
          show ((2 : ℚ) ^ (53 : ℤ)) = 2 ^ (53 : ℕ) from by norm_num, zpow_natCast]
      rw [hzp, lt_div_iff₀ hw]
      linarith
  have hu : ulpExp q = -(w : ℤ) := by
    unfold ulpExp
    omega
  have hscaled : flScaled q = q * 2 ^ w := by
    unfold flScaled
    rw [hu, neg_neg, zpow_natCast]
  have hrne : rne (flScaled q) = m := by
    rw [hscaled]
    exact rne_eq_of_lo _ m h1 h2
  unfold fl
  rw [if_neg (not_le.mpr hq), hrne, hu, zpow_neg, zpow_natCast]
  rw [div_eq_mul_inv]

/-- Characterisation of `fl` when the value rounds up: if `m / 2 ^ w` with
`2^52 < m < 2^53` satisfies `m - 1/2 < q * 2 ^ w ≤ m` then
`fl q = m / 2 ^ w`. -/
theorem fl_eq_up (q : ℚ) (m w : ℕ) (hm1 : 2 ^ 52 < m) (hm2 : m < 2 ^ 53)
    (h1 : (m : ℚ) - 1 / 2 < q * 2 ^ w) (h2 : q * 2 ^ w ≤ (m : ℚ)) :
    fl q = (m : ℚ) / 2 ^ w := by
  have hw : (0 : ℚ) < 2 ^ w := by positivity
  have hm1q : (2 : ℚ) ^ (52 : ℕ) < (m : ℚ) := by exact_mod_cast hm1
  have hm2q : (m : ℚ) < 2 ^ (53 : ℕ) := by exact_mod_cast hm2
  have hq : 0 < q := by
    have h52 : (0 : ℚ) < (2 : ℚ) ^ (52 : ℕ) := by positivity
    nlinarith
  have hm2s : (m : ℚ) ≤ 2 ^ (53 : ℕ) := le_of_lt hm2q
  have hmhalf : (2 : ℚ) ^ (52 : ℕ) ≤ (m : ℚ) - 1 / 2 := by
    have : (2 ^ 52 + 1 : ℕ) ≤ m := by omega
    have hc : (2 : ℚ) ^ (52 : ℕ) + 1 ≤ (m : ℚ) := by exact_mod_cast this
    linarith
  have hlog : Int.log 2 q = 52 - w := by
    apply int_log_eq_of q (52 - w) hq
    · have hzp : (2 : ℚ) ^ ((52 : ℤ) - (w : ℤ)) = 2 ^ (52 : ℕ) / 2 ^ (w : ℕ) := by
        rw [two_zpow_sub, show ((2 : ℚ) ^ (52 : ℤ)) = 2 ^ (52 : ℕ) from by norm_num,
          zpow_natCast]
      rw [hzp, div_le_iff₀ hw]
      linarith
    · have hzp : (2 : ℚ) ^ ((52 : ℤ) - (w : ℤ) + 1) = 2 ^ (53 : ℕ) / 2 ^ (w : ℕ) := by
        rw [show (52 : ℤ) - (w : ℤ) + 1 = 53 - (w : ℤ) from by ring, two_zpow_sub,
          show ((2 : ℚ) ^ (53 : ℤ)) = 2 ^ (53 : ℕ) from by norm_num, zpow_natCast]
      rw [hzp, lt_div_iff₀ hw]
      have h52pos : (0 : ℚ) < 2 ^ (52 : ℕ) := by positivity
      linarith
  have hu : ulpExp q = -(w : ℤ) := by
    unfold ulpExp
    omega
  have hscaled : flScaled q = q * 2 ^ w := by
    unfold flScaled
    rw [hu, neg_neg, zpow_natCast]
  have hrne : rne (flScaled q) = m := by
    rw [hscaled]
    exact rne_eq_of_hi _ m (by omega) h1 h2
  unfold fl
  rw [if_neg (not_le.mpr hq), hrne, hu, zpow_neg, zpow_natCast]
  rw [div_eq_mul_inv]

/-- A value with a 53-bit significand is representable: `fl` is the
identity on it. -/
theorem fl_rep (m w : ℕ) (hm1 : 2 ^ 52 ≤ m) (hm2 : m < 2 ^ 53) :
    fl ((m : ℚ) / 2 ^ w) = (m : ℚ) / 2 ^ w := by
  have hw : (2 : ℚ) ^ w ≠ 0 := by positivity
  apply fl_eq_down _ m w hm1 hm2
  · rw [div_mul_cancel₀ _ hw]
  · rw [div_mul_cancel₀ _ hw]
    linarith

/-- Relative error of binary64 rounding: `fl q` lies within `q / 2 ^ 53`
of `q`, and is positive, for positive `q`. -/
theorem fl_bounds (q : ℚ) (hq : 0 < q) :
    q - q / 2 ^ 53 ≤ fl q ∧ fl q ≤ q + q / 2 ^ 53 ∧ 0 < fl q := by
  have hL1 : (2 : ℚ) ^ Int.log 2 q ≤ q := by
    have := Int.zpow_log_le_self (b := 2) (R := ℚ) one_lt_two hq
    rwa [show ((2 : ℕ) : ℚ) = (2 : ℚ) by norm_num] at this
  have hL2 : q < (2 : ℚ) ^ (Int.log 2 q + 1) := by
    have := Int.lt_zpow_succ_log_self (b := 2) (R := ℚ) one_lt_two q
    rwa [show ((2 : ℕ) : ℚ) = (2 : ℚ) by norm_num] at this
  set L : ℤ := Int.log 2 q with hLdef
  have hu : ulpExp q = L - 52 := rfl
  have hupos : (0 : ℚ) < 2 ^ (L - 52) := two_zpow_pos _
  have hs : flScaled q = q * 2 ^ (52 - L) := by
    unfold flScaled
    rw [hu]
    congr 1
    ring
  have hspos : 0 < flScaled q := by
    rw [hs]
    exact mul_pos hq (two_zpow_pos _)
  have hs52 : (2 : ℚ) ^ (52 : ℤ) ≤ flScaled q := by
    rw [hs]
    calc (2 : ℚ) ^ (52 : ℤ) = 2 ^ (L + (52 - L)) := by ring_nf
      _ = 2 ^ L * 2 ^ (52 - L) := by
          rw [zpow_add₀ (by norm_num : (2 : ℚ) ≠ 0)]
      _ ≤ q * 2 ^ (52 - L) := by
          exact mul_le_mul_of_nonneg_right hL1 (le_of_lt (two_zpow_pos _))
  have hrne_le : (rne (flScaled q) : ℚ) ≤ flScaled q + 1 / 2 :=
    rne_le _ (le_of_lt hspos)
  have hle_rne : flScaled q - 1 / 2 ≤ (rne (flScaled q) : ℚ) :=
    le_rne _ (le_of_lt hspos)
  have hflq : fl q = (rne (flScaled q) : ℚ) * 2 ^ (L - 52) := by
    unfold fl
    rw [if_neg (not_le.mpr hq), hu]
  have hback : flScaled q * 2 ^ (L - 52) = q := by
    rw [hs]
    calc q * 2 ^ (52 - L) * 2 ^ (L - 52)
        = q * (2 ^ (52 - L) * 2 ^ (L - 52)) := by ring
      _ = q * 2 ^ ((52 - L) + (L - 52)) := by
          rw [zpow_add₀ (by norm_num : (2 : ℚ) ≠ 0)]
      _ = q := by
          norm_num
  have hhalf : (2 : ℚ) ^ (L - 52) / 2 ≤ q / 2 ^ 53 := by
    rw [div_le_div_iff (by norm_num) (by norm_num)]
    calc (2 : ℚ) ^ (L - 52) * 2 ^ 53 = 2 ^ (L - 52) * 2 ^ (53 : ℤ) := by norm_num
      _ = 2 ^ (L + 1) := by
          rw [← zpow_add₀ (by norm_num : (2 : ℚ) ≠ 0)]
          ring_nf
      _ = 2 ^ L * 2 := by
          rw [zpow_add₀ (by norm_num : (2 : ℚ) ≠ 0)]
          norm_num
      _ ≤ q * 2 := by linarith
  refine ⟨?_, ?_, ?_⟩
  · rw [hflq]
    have := mul_le_mul_of_nonneg_right hle_rne (le_of_lt hupos)
    rw [sub_mul, hback] at this
    have h2 : (1 : ℚ) / 2 * 2 ^ (L - 52) = 2 ^ (L - 52) / 2 := by ring
    rw [h2] at this
    linarith
  · rw [hflq]
    have := mul_le_mul_of_nonneg_right hrne_le (le_of_lt hupos)
    rw [add_mul, hback] at this
    have h2 : (1 : ℚ) / 2 * 2 ^ (L - 52) = 2 ^ (L - 52) / 2 := by ring
    rw [h2] at this
    linarith
  · rw [hflq]
    apply mul_pos _ hupos
    have h52 : (0 : ℚ) < 2 ^ (52 : ℤ) := two_zpow_pos _
    calc (0 : ℚ) < 2 ^ (52 : ℤ) - 1 / 2 := by
          have : (1 : ℚ) ≤ 2 ^ (52 : ℤ) := by
            calc (1 : ℚ) = 2 ^ (0 : ℤ) := by norm_num
              _ ≤ 2 ^ (52 : ℤ) := by
                  apply zpow_le_zpow_right₀ (by norm_num)
                  omega
          linarith
      _ ≤ flScaled q - 1 / 2 := by linarith
      _ ≤ (rne (flScaled q) : ℚ) := hle_rne

theorem fl_nonneg (q : ℚ) : 0 ≤ fl q := by
  by_cases hq : q ≤ 0
  · rw [fl_of_nonpos q hq]
  · exact le_of_lt (fl_bounds q (not_le.mp hq)).2.2

/-! ### The partition as the program computes it -/

/-- The index receiving the i-th extra pixel, as the program computes it:
`Math.floor(i * (N / r))` evaluated in IEEE-754 binary64 (src/index.js
line 202): the division rounds once, the product rounds once, and
`Math.floor` is exact. `i`, `N` and `r` convert to doubles exactly. -/
def incIndexJS (N r i : ℕ) : ℕ := ⌊fl ((i : ℚ) * fl ((N : ℚ) / (r : ℚ)))⌋₊

/-- The per-axis partition as the program computes it: `N` entries of
`⌊D/N⌋`, the entry at the double-rounded index `incIndexJS` incremented
for each `i < D % N` (src/index.js lines 196-214). -/
def sectionSizesJS (D N : ℕ) : List ℕ :=
  (List.range (remainderPixels D N)).foldl
    (fun l i => bumpAt l (incIndexJS N (remainderPixels D N) i)) (baseSections D N)

theorem incIndexJS_zero (N r : ℕ) : incIndexJS N r 0 = 0 := by
  unfold incIndexJS
  rw [Nat.cast_zero, zero_mul, fl_zero]
  simp

/-- The double-rounded increment value stays within `1 / (2r)` of the exact
`i * N / r` when `N ≤ 2 ^ 25`: two roundings at relative error `2⁻⁵³` each
cannot move a value bounded by `N` further than that. -/
theorem incIndexJS_val_bounds (N r i : ℕ) (hr : 0 < r) (hrN : r < N)
    (hN : N ≤ 2 ^ 25) (hi : i ≤ r) :
    (i : ℚ) * N / r - 1 / (2 * r) ≤ fl ((i : ℚ) * fl ((N : ℚ) / (r : ℚ))) ∧
    fl ((i : ℚ) * fl ((N : ℚ) / (r : ℚ))) ≤ (i : ℚ) * N / r + 1 / (2 * r) := by
  have hrq : (0 : ℚ) < r := by exact_mod_cast hr
  have hNq0 : (0 : ℚ) < N := by
    have : 0 < N := lt_trans hr hrN
    exact_mod_cast this
  have hA : 0 < (N : ℚ) / r := div_pos hNq0 hrq
  have hhalfpos : (0 : ℚ) < 1 / (2 * r) := by positivity
  rcases Nat.eq_zero_or_pos i with hi0 | hip
  · subst hi0
    simp only [Nat.cast_zero, zero_mul, fl_zero, zero_div]
    constructor <;> linarith
  · have hiq : (0 : ℚ) < i := by exact_mod_cast hip
    obtain ⟨hd_lo, hd_hi, hd_pos⟩ := fl_bounds ((N : ℚ) / r) hA
    have hx : (0 : ℚ) < (i : ℚ) * fl ((N : ℚ) / r) := mul_pos hiq hd_pos
    obtain ⟨hv_lo, hv_hi, _⟩ := fl_bounds ((i : ℚ) * fl ((N : ℚ) / r)) hx
    obtain ⟨eps, heps⟩ : ∃ e : ℚ, e = 1 / 2 ^ 53 := ⟨_, rfl⟩
    have heps_pos : (0 : ℚ) < eps := by rw [heps]; norm_num
    have heps_le : eps ≤ 1 := by rw [heps]; norm_num
    have hconv : ∀ y : ℚ, y / 2 ^ 53 = y * eps := by
      intro y
      rw [heps]
      ring
    rw [hconv] at hd_lo hd_hi hv_lo hv_hi
    have hiler : (i : ℚ) ≤ r := by exact_mod_cast hi
    have hiAN : (i : ℚ) * ((N : ℚ) / r) ≤ N := by
      rw [mul_div_assoc', div_le_iff₀ hrq]
      nlinarith
    have hiA_pos : (0 : ℚ) < (i : ℚ) * ((N : ℚ) / r) := mul_pos hiq hA
    -- bounds on x = i * fl(N/r)
    have hx_hi : (i : ℚ) * fl ((N : ℚ) / r)
        ≤ (i : ℚ) * ((N : ℚ) / r) + (i : ℚ) * ((N : ℚ) / r) * eps := by
      have h := mul_le_mul_of_nonneg_left hd_hi (le_of_lt hiq)
      calc (i : ℚ) * fl ((N : ℚ) / r)
          ≤ (i : ℚ) * ((N : ℚ) / r + (N : ℚ) / r * eps) := h
        _ = (i : ℚ) * ((N : ℚ) / r) + (i : ℚ) * ((N : ℚ) / r) * eps := by ring
    have hx_lo : (i : ℚ) * ((N : ℚ) / r) - (i : ℚ) * ((N : ℚ) / r) * eps
        ≤ (i : ℚ) * fl ((N : ℚ) / r) := by
      have h := mul_le_mul_of_nonneg_left hd_lo (le_of_lt hiq)
      calc (i : ℚ) * ((N : ℚ) / r) - (i : ℚ) * ((N : ℚ) / r) * eps
          = (i : ℚ) * ((N : ℚ) / r - (N : ℚ) / r * eps) := by ring
        _ ≤ (i : ℚ) * fl ((N : ℚ) / r) := h
    -- x * eps ≤ 2 * (i * A) * eps
    have hxeps : (i : ℚ) * fl ((N : ℚ) / r) * eps
        ≤ 2 * ((i : ℚ) * ((N : ℚ) / r)) * eps := by
      have hfits : (i : ℚ) * fl ((N : ℚ) / r) ≤ 2 * ((i : ℚ) * ((N : ℚ) / r)) := by
        nlinarith
      exact mul_le_mul_of_nonneg_right hfits (le_of_lt heps_pos)
    -- total error budget
    have herr : 3 * ((i : ℚ) * ((N : ℚ) / r)) * eps ≤ 1 / (2 * r) := by
      have h3N : 3 * ((i : ℚ) * ((N : ℚ) / r)) * eps ≤ 3 * (N : ℚ) * eps := by
        have := mul_le_mul_of_nonneg_right hiAN (le_of_lt heps_pos)
        nlinarith
      have hNle : (N : ℚ) ≤ 2 ^ 25 := by exact_mod_cast hN
      have hrle : (r : ℚ) ≤ 2 ^ 25 := by
        have : r ≤ 2 ^ 25 := le_trans (le_of_lt hrN) hN
        exact_mod_cast this
      have hbudget : 3 * (N : ℚ) * eps ≤ 1 / (2 * r) := by
        rw [heps, show (3 : ℚ) * N * (1 / 2 ^ 53) = 3 * N / 2 ^ 53 from by ring,
          div_le_div_iff (by norm_num) (by positivity)]
        have hprod : (N : ℚ) * r ≤ 2 ^ 25 * 2 ^ 25 :=
          mul_le_mul hNle hrle (le_of_lt hrq) (by norm_num)
        nlinarith
      calc 3 * ((i : ℚ) * ((N : ℚ) / r)) * eps ≤ 3 * (N : ℚ) * eps := h3N
        _ ≤ 1 / (2 * r) := hbudget
    have hgoal_hi : fl ((i : ℚ) * fl ((N : ℚ) / r))
        ≤ (i : ℚ) * ((N : ℚ) / r) + 1 / (2 * r) := by
      linarith
    have hgoal_lo : (i : ℚ) * ((N : ℚ) / r) - 1 / (2 * r)
        ≤ fl ((i : ℚ) * fl ((N : ℚ) / r)) := by
      linarith
    constructor
    · calc (i : ℚ) * N / r - 1 / (2 * r)
          = (i : ℚ) * ((N : ℚ) / r) - 1 / (2 * r) := by ring
        _ ≤ fl ((i : ℚ) * fl ((N : ℚ) / r)) := hgoal_lo
    · calc fl ((i : ℚ) * fl ((N : ℚ) / r))
          ≤ (i : ℚ) * ((N : ℚ) / r) + 1 / (2 * r) := hgoal_hi
        _ = (i : ℚ) * N / r + 1 / (2 * r) := by ring

theorem incIndexJS_lt (N r i : ℕ) (hr : 0 < r) (hrN : r < N) (hN : N ≤ 2 ^ 25)
    (hi : i < r) : incIndexJS N r i < N := by
  have hN0 : 0 < N := lt_trans hr hrN
  rcases Nat.eq_zero_or_pos i with hi0 | hip
  · subst hi0
    rw [incIndexJS_zero]
    exact hN0
  · obtain ⟨_, hhi⟩ := incIndexJS_val_bounds N r i hr hrN hN (le_of_lt hi)
    unfold incIndexJS
    rw [Nat.floor_lt (fl_nonneg _)]
    have hrq : (0 : ℚ) < r := by exact_mod_cast hr
    have hr0 : (r : ℚ) ≠ 0 := ne_of_gt hrq
    have h2r : (0 : ℚ) < 2 * r := by positivity
    have hiq : (i : ℚ) ≤ (r : ℚ) - 1 := by
      have h1 : i + 1 ≤ r := hi
      have h2 : (i : ℚ) + 1 ≤ r := by exact_mod_cast h1
      linarith
    have hNq1 : (1 : ℚ) ≤ N := by exact_mod_cast hN0
    have hNq : (0 : ℚ) ≤ N := by linarith
    have key : (i : ℚ) * N / r + 1 / (2 * r) < N := by
      rw [show (i : ℚ) * N / r + 1 / (2 * r) = ((i : ℚ) * N * 2 + 1) / (2 * r) from by
        field_simp
        ring]
      rw [div_lt_iff₀ h2r]
      nlinarith
    linarith

theorem incIndexJS_lt_of_lt (N r i j : ℕ) (hr : 0 < r) (hrN : r < N) (hN : N ≤ 2 ^ 25)
    (hij : i < j) (hj : j < r) : incIndexJS N r i < incIndexJS N r j := by
  obtain ⟨_, hhi_i⟩ := incIndexJS_val_bounds N r i hr hrN hN
    (le_of_lt (lt_trans hij hj))
  obtain ⟨hlo_j, _⟩ := incIndexJS_val_bounds N r j hr hrN hN (le_of_lt hj)
  have hrq : (0 : ℚ) < r := by exact_mod_cast hr
  have hr0 : (r : ℚ) ≠ 0 := ne_of_gt hrq
  have h2r : (0 : ℚ) < 2 * r := by positivity
  have hij1 : (i : ℚ) + 1 ≤ j := by exact_mod_cast hij
  have hNr1 : (r : ℚ) + 1 ≤ N := by exact_mod_cast hrN
  have hiq0 : (0 : ℚ) ≤ i := Nat.cast_nonneg i
  have hN0q : (0 : ℚ) ≤ N := by positivity
  have key : (i : ℚ) * N / r + 1 / (2 * r) + 1 ≤ (j : ℚ) * N / r - 1 / (2 * r) := by
    rw [show (i : ℚ) * N / r + 1 / (2 * r) + 1 = ((i : ℚ) * N * 2 + 1 + 2 * r) / (2 * r)
      from by field_simp; ring]
    rw [show (j : ℚ) * N / r - 1 / (2 * r) = ((j : ℚ) * N * 2 - 1) / (2 * r) from by
      field_simp
      ring]
    have hjN : (i : ℚ) * N + N ≤ (j : ℚ) * N := by
      have h := mul_le_mul_of_nonneg_right hij1 hN0q
      linarith [h]
    have hnum : (i : ℚ) * N * 2 + 1 + 2 * r ≤ (j : ℚ) * N * 2 - 1 := by linarith
    rw [div_le_div_iff₀ h2r h2r]
    exact mul_le_mul_of_nonneg_right hnum (le_of_lt h2r)
  have hstep : fl ((i : ℚ) * fl ((N : ℚ) / r)) + 1 ≤ fl ((j : ℚ) * fl ((N : ℚ) / r)) := by
    linarith
  unfold incIndexJS
  have hfloor_i : (⌊fl ((i : ℚ) * fl ((N : ℚ) / r))⌋₊ : ℚ)
      ≤ fl ((i : ℚ) * fl ((N : ℚ) / r)) := Nat.floor_le (fl_nonneg _)
  have hle : ((⌊fl ((i : ℚ) * fl ((N : ℚ) / r))⌋₊ + 1 : ℕ) : ℚ)
      ≤ fl ((j : ℚ) * fl ((N : ℚ) / r)) := by
    push_cast
    linarith
  have h2 := Nat.le_floor hle
  omega

/-- `fl (30 / 22)`: the double `1.3636363636363635`, which rounds the exact
quotient down. -/
theorem fl_30_22 : fl ((30 : ℚ) / 22) = (6141272219141585 : ℚ) / 2 ^ 52 := by
  rw [fl_eq_down ((30 : ℚ) / 22) 6141272219141585 52 (by norm_num) (by norm_num)
    (by norm_num) (by norm_num)]
  norm_num

/-- `11 * 1.3636363636363635`: the double `14.999999999999998`. -/
theorem fl_11_mul : fl ((11 : ℚ) * ((6141272219141585 : ℚ) / 2 ^ 52))
    = (8444249301319679 : ℚ) / 2 ^ 49 := by
  rw [fl_eq_down _ 8444249301319679 49 (by norm_num) (by norm_num)
    (by norm_num) (by norm_num)]
  norm_num

/-- The program's increment target at `N = 30`, `r = 22`, `i = 11` is 14:
`30 / 22` rounds down to `1.3636363636363635`, multiplying by 11 gives
`14.999999999999998`, and `Math.floor` yields 14 — not the exact
`⌊11 * 30 / 22⌋ = 15`. -/
theorem incIndexJS_30_22_11 : incIndexJS 30 22 11 = 14 := by
  unfold incIndexJS
  push_cast
  rw [fl_30_22, fl_11_mul]
  rw [show (8444249301319679 : ℚ) / 2 ^ 49
      = ((8444249301319679 : ℕ) : ℚ) / ((562949953421312 : ℕ) : ℚ) from by norm_num]
  rw [Nat.floor_div_nat, Nat.floor_natCast]

theorem fl_3_2 : fl ((3 : ℚ) / 2) = (3 : ℚ) / 2 := by
  rw [fl_eq_down ((3 : ℚ) / 2) 6755399441055744 52 (by norm_num) (by norm_num)
    (by norm_num) (by norm_num)]
  norm_num

theorem incIndexJS_3_2_1 : incIndexJS 3 2 1 = 1 := by
  unfold incIndexJS
  push_cast
  rw [one_mul, fl_3_2, fl_3_2]
  rw [show (3 : ℚ) / 2 = ((3 : ℕ) : ℚ) / ((2 : ℕ) : ℚ) from by norm_num]
  rw [Nat.floor_div_nat, Nat.floor_natCast]

theorem getD_foldl_bump_fn (f : ℕ → ℕ) (is : List ℕ) :
    ∀ (l : List ℕ) (j : ℕ), (∀ i ∈ is, f i < l.length) →
      ((is.foldl (fun l i => bumpAt l (f i)) l).getD j 0)
        = l.getD j 0 + is.countP (fun i => f i == j) := by
  induction is with
  | nil => intro l j _; simp
  | cons a as ih =>
    intro l j hbound
    rw [List.foldl_cons]
    rw [ih (bumpAt l (f a)) j
      (fun i hi => by rw [length_bumpAt]; exact hbound i (List.mem_cons_of_mem _ hi))]
    rw [getD_bumpAt, List.countP_cons]
    have ha : f a < l.length := hbound a (List.mem_cons_self _ _)
    by_cases hj : f a = j
    · rw [if_pos ⟨hj.symm, ha⟩]
      simp [hj]
      omega
    · rw [if_neg (fun hc => hj hc.1.symm)]
      simp [hj]

/-- The indices the program's remainder loop increments. -/
def incTargetsJS (N r : ℕ) : List ℕ := (List.range r).map (fun i => incIndexJS N r i)

theorem incTargetsJS_nodup (N r : ℕ) (hrN : r < N) (hN : N ≤ 2 ^ 25) :
    (incTargetsJS N r).Nodup := by
  rcases Nat.eq_zero_or_pos r with hr | hr
  · subst hr
    simp [incTargetsJS]
  · unfold incTargetsJS
    apply (List.nodup_range r).map_on
    intro x hx y hy hxy
    rcases lt_trichotomy x y with h | h | h
    · exact absurd hxy
        (ne_of_lt (incIndexJS_lt_of_lt N r x y hr hrN hN h (List.mem_range.mp hy)))
    · exact h
    · exact absurd hxy.symm
        (ne_of_lt (incIndexJS_lt_of_lt N r y x hr hrN hN h (List.mem_range.mp hx)))

theorem mem_incTargetsJS_lt (N r j : ℕ) (hrN : r < N) (hN : N ≤ 2 ^ 25)
    (hj : j ∈ incTargetsJS N r) : j < N := by
  obtain ⟨i, hi, rfl⟩ := List.mem_map.mp hj
  have hir := List.mem_range.mp hi
  exact incIndexJS_lt N r i (by omega) hrN hN hir

theorem length_incTargetsJS (N r : ℕ) : (incTargetsJS N r).length = r := by
  simp [incTargetsJS]

theorem length_sectionSizesJS (D N : ℕ) : (sectionSizesJS D N).length = N := by
  unfold sectionSizesJS
  have h : ∀ (is : List ℕ) (l : List ℕ),
      (is.foldl (fun l i => bumpAt l (incIndexJS N (remainderPixels D N) i)) l).length
        = l.length := by
    intro is
    induction is with
    | nil => intro l; rfl
    | cons a as ih => intro l; rw [List.foldl_cons, ih, length_bumpAt]
  rw [h]
  simp [baseSections]

theorem sectionSizesJS_getD (D N : ℕ) (hN : 0 < N) (h25 : N ≤ 2 ^ 25)
    (j : ℕ) (hj : j < N) :
    (sectionSizesJS D N).getD j 0
      = D / N + (if j ∈ incTargetsJS N (D % N) then 1 else 0) := by
  unfold sectionSizesJS
  have hrem : remainderPixels D N = D % N := rfl
  rw [getD_foldl_bump_fn]
  · have hbase : (baseSections D N).getD j 0 = D / N := by
      unfold baseSections
      rw [List.getD_eq_getElem (l := List.replicate N (D / N)) 0
        (by simpa using hj)]
      simp
    rw [hbase, hrem]
    congr 1
    have hcount : (List.range (D % N)).countP
        (fun i => incIndexJS N (D % N) i == j)
          = List.count j (incTargetsJS N (D % N)) := by
      unfold incTargetsJS
      rw [List.count, List.countP_map]
      rfl
    rw [hcount]
    by_cases hmem : j ∈ incTargetsJS N (D % N)
    · rw [if_pos hmem,
        List.count_eq_one_of_mem (incTargetsJS_nodup N (D % N) (Nat.mod_lt D hN) h25)
          hmem]
    · rw [if_neg hmem, List.count_eq_zero_of_not_mem hmem]
  · intro i hi
    unfold baseSections
    rw [List.length_replicate, hrem]
    exact incIndexJS_lt N (D % N) i (by
      have := List.mem_range.mp hi
      omega) (Nat.mod_lt D hN) h25 (List.mem_range.mp hi)

theorem sectionSizesJS_sum (D N : ℕ) (hN : 0 < N) (h25 : N ≤ 2 ^ 25) :
    (sectionSizesJS D N).sum = D := by
  rw [list_sum_eq_getD, length_sectionSizesJS]
  have hcong : ∀ j ∈ Finset.range N, (sectionSizesJS D N).getD j 0
      = D / N + (if j ∈ incTargetsJS N (D % N) then 1 else 0) := by
    intro j hj
    exact sectionSizesJS_getD D N hN h25 j (Finset.mem_range.mp hj)
  rw [Finset.sum_congr rfl hcong, Finset.sum_add_distrib, Finset.sum_const,
    Finset.card_range, smul_eq_mul]
  have hfilter : (Finset.range N).filter (fun j => j ∈ incTargetsJS N (D % N))
      = (incTargetsJS N (D % N)).toFinset := by
    ext j
    simp only [Finset.mem_filter, Finset.mem_range, List.mem_toFinset]
    constructor
    · exact fun h => h.2
    · intro h
      exact ⟨mem_incTargetsJS_lt N (D % N) j (Nat.mod_lt D hN) h25 h, h⟩
  rw [Finset.sum_boole, hfilter,
    List.toFinset_card_of_nodup (incTargetsJS_nodup N (D % N) (Nat.mod_lt D hN) h25),
    length_incTargetsJS]
  simp only [Nat.cast_id]
  have := Nat.div_add_mod D N
  omega

theorem mem_sectionSizesJS (D N e : ℕ) (he : e ∈ sectionSizesJS D N) :
    ∃ j, j < N ∧ (sectionSizesJS D N).getD j 0 = e := by
  obtain ⟨j, hj, hval⟩ := List.mem_iff_getElem.mp he
  rw [length_sectionSizesJS] at hj
  refine ⟨j, hj, ?_⟩
  rw [List.getD_eq_getElem (sectionSizesJS D N) 0
    (by rw [length_sectionSizesJS]; exact hj)]
  exact hval

theorem sectionSizesJS_11_3 : sectionSizesJS 11 3 = [4, 4, 3] := by
  have h0 : incIndexJS 3 2 0 = 0 := incIndexJS_zero 3 2
  have h1 : incIndexJS 3 2 1 = 1 := incIndexJS_3_2_1
  show (List.range 2).foldl (fun l i => bumpAt l (incIndexJS 3 2 i)) [3, 3, 3]
      = [4, 4, 3]
  rw [show List.range 2 = [0, 1] from rfl]
  rw [List.foldl_cons, List.foldl_cons, List.foldl_nil, h0, h1]
  rfl

theorem fl_fix (x : ℚ) (m w : ℕ) (hm1 : 2 ^ 52 ≤ m) (hm2 : m < 2 ^ 53)
    (hx : x = (m : ℚ) / 2 ^ w) : fl x = x := by
  rw [hx]
  exact fl_rep m w hm1 hm2

/-- `individualSectionWidths` as the program computes it. -/
def individualSectionWidthsJS (width xPixels : ℕ) : List ℕ := sectionSizesJS width xPixels

/-- `individualSectionHeights` as the program computes it. -/
def individualSectionHeightsJS (height yPixels : ℕ) : List ℕ := sectionSizesJS height yPixels

/-- **C1**: for every dimension `D ≥ 1` and cell count `N` with `1 ≤ N ≤ D`
(and `N ≤ 2²⁵`, far beyond any realizable canvas axis: the bound keeps the
binary64 rounding of the increment indices from drifting by a whole unit),
each per-axis partition produced by the pipeline
(`individualSectionWidths` / `individualSectionHeights`, src/index.js
193-214), with the remainder loop's index arithmetic modelled bit-exactly
in IEEE-754 binary64, has exactly `N` entries, all positive, summing
exactly to `D`, each entry being `⌊D/N⌋` or `⌊D/N⌋ + 1`, and is uniform
when `D % N = 0`. -/
theorem partition_exact_tiling_js (D N : ℕ) (hN : 1 ≤ N) (hND : N ≤ D)
    (h25 : N ≤ 2 ^ 25) :
    (individualSectionWidthsJS D N).length = N ∧
    (∀ e ∈ individualSectionWidthsJS D N, 0 < e) ∧
    (individualSectionWidthsJS D N).sum = D ∧
    (∀ e ∈ individualSectionWidthsJS D N, e = D / N ∨ e = D / N + 1) ∧
    (D % N = 0 → ∀ e ∈ individualSectionWidthsJS D N, e = D / N) ∧
    individualSectionHeightsJS D N = individualSectionWidthsJS D N := by
  have hbase : 1 ≤ D / N := (Nat.one_le_div_iff hN).mpr hND
  refine ⟨length_sectionSizesJS D N, ?_, sectionSizesJS_sum D N hN h25, ?_, ?_, rfl⟩
  · intro e he
    obtain ⟨j, hj, hgd⟩ := mem_sectionSizesJS D N e he
    rw [sectionSizesJS_getD D N hN h25 j hj] at hgd
    omega
  · intro e he
    obtain ⟨j, hj, hgd⟩ := mem_sectionSizesJS D N e he
    rw [sectionSizesJS_getD D N hN h25 j hj] at hgd
    by_cases hmem : j ∈ incTargetsJS N (D % N)
    · rw [if_pos hmem] at hgd; omega
    · rw [if_neg hmem] at hgd; omega
  · intro hmod e he
    obtain ⟨j, hj, hgd⟩ := mem_sectionSizesJS D N e he
    rw [sectionSizesJS_getD D N hN h25 j hj] at hgd
    have hempty : incTargetsJS N (D % N) = [] := by
      rw [hmod]
      rfl
    rw [hempty] at hgd
    simp at hgd
    omega

/-- Witness for `partition_exact_tiling_js` at `D = 7`, `N = 3`. -/
theorem partition_exact_tiling_js_witness :
    (individualSectionWidthsJS 7 3).length = 3 ∧
    (individualSectionWidthsJS 7 3).sum = 7 :=
  ⟨(partition_exact_tiling_js 7 3 (by decide) (by decide) (by decide)).1,
   (partition_exact_tiling_js 7 3 (by decide) (by decide) (by decide)).2.2.1⟩

/-- **C8, counterexample**: the increment targets are computed in binary64
(`Math.floor(i * (N / r))`, src/index.js 202), not in exact arithmetic: at
`N = 30`, `r = 22` (e.g. a 52-pixel dimension split into 30 cells),
increment `i = 11` targets index 14 — `30 / 22` rounds down to the double
`1.3636363636363635` and multiplying by 11 gives `14.999999999999998` —
while the claimed exact formula `⌊i * N / r⌋` gives 15. -/
theorem increment_formula_float_counterexample :
    incIndexJS 30 22 11 = 14 ∧ incIndex 30 22 11 = 15 ∧ (14 : ℕ) ≠ 15 := by
  refine ⟨incIndexJS_30_22_11, ?_, by decide⟩
  rw [incIndex_eq_div]

/-- **C8, amended**: when `r = D % N > 0` the partition starts all `N`
entries at `⌊D/N⌋` and increments, for each `i < r`, exactly the entry at
the binary64-computed index `⌊fl(i * fl(N / r))⌋` (`incIndexJS`); for
`N ≤ 2²⁵` these targets are strictly increasing and in range, so the larger
cells are staggered across the sequence rather than clustered, and an
11-pixel dimension split into 3 cells yields `[4, 4, 3]` — the extra pixels
at the front, not all trailing. The spec's exact formula `⌊i * N / r⌋` does
not describe the code at every input: at `N = 30`, `r = 22`, `i = 11` the
code targets 14 while the exact formula gives 15. -/
theorem partition_staggered_increments_js :
    (∀ D N, 0 < N → N ≤ 2 ^ 25 → 0 < D % N →
      ∀ j, j < N → (sectionSizesJS D N).getD j 0
        = D / N + (if j ∈ incTargetsJS N (D % N) then 1 else 0)) ∧
    (∀ N r i j, 0 < r → r < N → N ≤ 2 ^ 25 → i < j → j < r →
      incIndexJS N r i < incIndexJS N r j) ∧
    (∀ N r i, 0 < r → r < N → N ≤ 2 ^ 25 → i < r → incIndexJS N r i < N) ∧
    sectionSizesJS 11 3 = [4, 4, 3] ∧
    ([4, 4, 3] : List ℕ) ≠ [3, 4, 4] ∧
    incIndexJS 30 22 11 = 14 ∧ 11 * 30 / 22 = 15 := by
  refine ⟨?_, ?_, ?_, sectionSizesJS_11_3, by decide, incIndexJS_30_22_11, by decide⟩
  · intro D N hN h25 _ j hj
    exact sectionSizesJS_getD D N hN h25 j hj
  · intro N r i j hr hrN h25 hij hj
    exact incIndexJS_lt_of_lt N r i j hr hrN h25 hij hj
  · intro N r i hr hrN h25 hi
    exact incIndexJS_lt N r i hr hrN h25 hi

/-- Witness for `partition_staggered_increments_js`: at `D = 11`, `N = 3`
(so `r = 2`) increments 0 and 1 target strictly increasing indices. -/
theorem partition_staggered_increments_js_witness :
    0 < 2 ∧ 2 < 3 ∧ 3 ≤ 2 ^ 25 ∧ 0 < 1 ∧ 1 < 2 ∧
    incIndexJS 3 2 0 < incIndexJS 3 2 1 :=
  ⟨by decide, by decide, by decide, by decide, by decide,
   partition_staggered_increments_js.2.1 3 2 0 1 (by decide) (by decide) (by decide)
     (by decide) (by decide)⟩

/-! ### Orientation

`const shouldAllocateByRows = xPixels > yPixels` (src/index.js line 191)
selects which axis is sliced into stripes: when true the outer values are
the section heights, otherwise the section widths (lines 220-231). -/

/-- `shouldAllocateByRows` (src/index.js line 191). -/
def shouldAllocateByRows (xPixels yPixels : ℕ) : Bool := decide (xPixels > yPixels)

/-- `outerValues` (src/index.js lines 220-222): heights when allocating by
rows, widths otherwise. -/
def outerValues (width height xPixels yPixels : ℕ) : List ℕ :=
  if shouldAllocateByRows xPixels yPixels then individualSectionHeights height yPixels
  else individualSectionWidths width xPixels

/-- `innerValues` (src/index.js lines 224-226): the partition of the other
axis, reduced within each stripe. -/
def innerValues (width height xPixels yPixels : ℕ) : List ℕ :=
  if shouldAllocateByRows xPixels yPixels then individualSectionWidths width xPixels
  else individualSectionHeights height yPixels

/-- The number of stripe tasks: one per outer partition entry. -/
def stripeCount (width height xPixels yPixels : ℕ) : ℕ :=
  (outerValues width height xPixels yPixels).length

/-- **C2, counterexample**: for a 4x2 source with `xCells = 2 > yCells = 1`
the code sets `shouldAllocateByRows` and slices along the Y axis, whose cell
count (1) is the smaller one; the claimed outer partition — the X axis with
the larger count, `[2, 2]` — differs from the actual outer partition `[2]`. -/
theorem outer_axis_larger_counterexample :
    shouldAllocateByRows 2 1 = true ∧
    outerValues 4 2 2 1 = individualSectionHeights 2 1 ∧
    outerValues 4 2 2 1 = [2] ∧
    individualSectionWidths 4 2 = [2, 2] ∧
    ([2] : List ℕ) ≠ [2, 2] := by
  refine ⟨by decide, rfl, ?_, ?_, by decide⟩
  · show sectionSizes 2 1 = [2]
    rw [sectionSizes_eq_divFold]
    decide
  · show sectionSizes 4 2 = [2, 2]
    rw [sectionSizes_eq_divFold]
    decide

/-- **C2, amended**: the outer axis — one dispatched stripe per outer
partition entry — is whichever axis has the *smaller* cell count (the Y axis
exactly when `xCells > yCells`, the X axis otherwise, so ties go to the X
axis), and the inner partition is the axis with the larger cell count. -/
theorem outer_axis_smaller_count (width height xPixels yPixels : ℕ) :
    (shouldAllocateByRows xPixels yPixels = true ↔ yPixels < xPixels) ∧
    stripeCount width height xPixels yPixels = min xPixels yPixels ∧
    (innerValues width height xPixels yPixels).length = max xPixels yPixels := by
  refine ⟨by simp [shouldAllocateByRows], ?_, ?_⟩
  · unfold stripeCount outerValues
    by_cases h : shouldAllocateByRows xPixels yPixels = true
    · have hlt : yPixels < xPixels := by simpa [shouldAllocateByRows] using h
      rw [if_pos h]
      unfold individualSectionHeights
      rw [length_sectionSizes]
      omega
    · have hle : xPixels ≤ yPixels := by
        simp [shouldAllocateByRows] at h
        omega
      rw [if_neg h]
      unfold individualSectionWidths
      rw [length_sectionSizes]
      omega
  · unfold innerValues
    by_cases h : shouldAllocateByRows xPixels yPixels = true
    · have hlt : yPixels < xPixels := by simpa [shouldAllocateByRows] using h
      rw [if_pos h]
      unfold individualSectionWidths
      rw [length_sectionSizes]
      omega
    · have hle : xPixels ≤ yPixels := by
        simp [shouldAllocateByRows] at h
        omega
      rw [if_neg h]
      unfold individualSectionHeights
      rw [length_sectionSizes]
      omega

/-! ### Scheduler

`_pixelateElementToCanvas` (src/index.js lines 216-308) queues one task per
outer partition entry, starts `maxProcesses = min(tasks.length, maxWorkers)`
chains with `nextQueue()`, and each chain creates one worker on its first
task. On `onmessage` the task promise resolves, the same worker pulls the
next queued task, the stripe is drawn, `resolvedTasks` is incremented, and
when `resolvedTasks === outerValues.length` every worker in `workerArray`
is terminated and the outer promise resolves. On `onerror` the task promise
is rejected (the rejection is never handled and the outer promise has no
reject) and the same worker still pulls the next queued task. A rejected
`createImageBitmap` crop promise has no handler at all, so that chain
simply stops. The model below replays one call as a sequence of completion
events chosen by an external schedule. -/

/-- The outcome of one dispatched stripe task. -/
inductive TaskOutcome where
  | success
  | workerError
  | cropFailure
  deriving DecidableEq, Repr

/-- State of one call's task queue and worker pool. `queue` holds indices of
stripe tasks not yet shifted; `running` holds (worker id, task index) pairs
in flight; `created` counts `new Worker(...)` calls; `draws` lists
successfully completed stripes in completion order; `resolvedTasks`,
`terminatedCount` and `settled` mirror the code's counter, the number of
`worker.terminate()` calls and whether the outer promise has resolved;
`failed` and `lost` record tasks whose worker fired `onerror` resp. whose
crop promise rejected. -/
structure Sched where
  queue : List ℕ
  running : List (ℕ × ℕ)
  created : ℕ
  resolvedTasks : ℕ
  draws : List ℕ
  failed : List ℕ
  lost : List ℕ
  terminatedCount : ℕ
  settled : Bool
  total : ℕ
  deriving DecidableEq, Repr

/-- The state after the initial dispatch loop (src/index.js lines 241-243):
`min(tasks.length, maxWorkers)` calls to `nextQueue()`, each shifting one
task and creating one fresh worker for it. -/
def initSched (n m : ℕ) : Sched :=
  { queue := (List.range n).drop (min n m)
    running := (List.range (min n m)).map (fun i => (i, i))
    created := min n m
    resolvedTasks := 0
    draws := []
    failed := []
    lost := []
    terminatedCount := 0
    settled := false
    total := n }

/-- One completion event: the schedule index `c` picks which in-flight task
fires. On success the code resolves the task, draws the stripe, increments
`resolvedTasks`, terminates all workers exactly when the counter reaches
the task total, and hands the head of the queue to the same worker
(src/index.js lines 265-271, 287-306). On a worker error it rejects the
(unhandled) task promise and still hands the next queued task to the same
worker (lines 272-275). On a crop failure nothing at all happens for that
chain (lines 256-263 have no rejection handler). -/
def step (outcomes : ℕ → TaskOutcome) (s : Sched) (c : ℕ) : Sched :=
  if s.running.isEmpty then s
  else
    let idx := c % s.running.length
    let wt := s.running.getD idx (0, 0)
    let running' := s.running.eraseIdx idx
    match outcomes wt.2 with
    | .cropFailure => { s with running := running', lost := s.lost ++ [wt.2] }
    | .workerError =>
      match s.queue with
      | [] => { s with running := running', failed := s.failed ++ [wt.2] }
      | t :: q =>
        { s with running := running' ++ [(wt.1, t)], queue := q,
                 failed := s.failed ++ [wt.2] }
    | .success =>
      let r := s.resolvedTasks + 1
      let s2 := { s with
        resolvedTasks := r
        draws := s.draws ++ [wt.2]
        terminatedCount := if r = s.total then s.terminatedCount + s.created
          else s.terminatedCount
        settled := s.settled || decide (r = s.total) }
      match s.queue with
      | [] => { s2 with running := running' }
      | t :: q => { s2 with running := running' ++ [(wt.1, t)], queue := q }

/-- Replay a whole call under a schedule of completion events. -/
def runSteps (outcomes : ℕ → TaskOutcome) (sched : List ℕ) (s : Sched) : Sched :=
  sched.foldl (step outcomes) s

/-- A drained call: no task is queued or in flight any more. -/
def runDone (s : Sched) : Prop := s.queue = [] ∧ s.running = []

theorem perm_getD_cons_eraseIdx (l : List (ℕ × ℕ)) (i : ℕ) (h : i < l.length) :
    (l.getD i (0, 0) :: l.eraseIdx i).Perm l := by
  induction l generalizing i with
  | nil => simp at h
  | cons a as ih =>
    cases i with
    | zero => simp [List.getD_cons_zero, List.eraseIdx]
    | succ j =>
      have hj : j < as.length := by simpa using h
      have h1 : ((a :: as).getD (j + 1) (0, 0) :: (a :: as).eraseIdx (j + 1))
          = as.getD j (0, 0) :: a :: as.eraseIdx j := by
        simp [List.eraseIdx]
      rw [h1]
      exact (List.Perm.swap a (as.getD j (0, 0)) (as.eraseIdx j)).trans
        ((ih j hj).cons a)

/-- The inductive invariant maintained by the scheduler model across
completion events. -/
def SchedInv (outcomes : ℕ → TaskOutcome) (n m : ℕ) (s : Sched) : Prop :=
  1 ≤ n ∧
  s.total = n ∧
  s.created = min n m ∧
  (s.queue ++ s.running.map Prod.snd ++ s.draws ++ s.failed ++ s.lost).Perm
    (List.range n) ∧
  (∀ t ∈ s.draws, outcomes t = .success) ∧
  (∀ t ∈ s.failed, outcomes t = .workerError) ∧
  (∀ t ∈ s.lost, outcomes t = .cropFailure) ∧
  s.resolvedTasks = s.draws.length ∧
  (s.settled = true ↔ s.resolvedTasks = n) ∧
  s.terminatedCount = (if s.settled then s.created else 0) ∧
  (∀ p ∈ s.running, p.1 < min n m) ∧
  ((∀ t, outcomes t ≠ .cropFailure) → s.queue ≠ [] → s.running.length = min n m)

theorem schedInv_init (outcomes : ℕ → TaskOutcome) (n m : ℕ) (hn : 1 ≤ n) :
    SchedInv outcomes n m (initSched n m) := by
  unfold SchedInv initSched
  refine ⟨hn, rfl, rfl, ?_, fun t ht => absurd ht (List.not_mem_nil t),
    fun t ht => absurd ht (List.not_mem_nil t),
    fun t ht => absurd ht (List.not_mem_nil t), rfl, by simp; omega, rfl,
    ?_, ?_⟩
  · have hmap : ∀ (L : List ℕ), (L.map (fun i => (i, i))).map Prod.snd = L := by
      intro L
      induction L with
      | nil => rfl
      | cons a as ih => simp only [List.map_cons, ih]
    simp only [List.append_nil, hmap]
    have htake : (List.range n).take (min n m) = List.range (min n m) := by
      rw [List.take_range]
      congr 1
      omega
    have h2 : List.range (min n m) ++ (List.range n).drop (min n m)
        = List.range n := by
      rw [← htake]
      exact List.take_append_drop _ _
    exact List.perm_append_comm.trans (by rw [h2])
  · intro p hp
    obtain ⟨i, hi, rfl⟩ := List.mem_map.mp hp
    simpa using List.mem_range.mp hi
  · intro _ _
    simp

theorem schedInv_step (outcomes : ℕ → TaskOutcome) (n m : ℕ) (s : Sched) (c : ℕ)
    (hinv : SchedInv outcomes n m s) : SchedInv outcomes n m (step outcomes s c) := by
  obtain ⟨hn, htot, hcre, hperm, hdr, hfl, hls, hres, hstl, htrm, hwlt, hqr⟩ := hinv
  unfold step
  by_cases hemp : s.running.isEmpty
  · rw [if_pos hemp]
    exact ⟨hn, htot, hcre, hperm, hdr, hfl, hls, hres, hstl, htrm, hwlt, hqr⟩
  · rw [if_neg hemp]
    have hlen : 0 < s.running.length :=
      List.length_pos.mpr (fun h => hemp (by rw [h]; rfl))
    have hidx : c % s.running.length < s.running.length := Nat.mod_lt _ hlen
    dsimp only
    set wt := s.running.getD (c % s.running.length) (0, 0) with hwt
    set running' := s.running.eraseIdx (c % s.running.length) with hrunE
    have hpermrun : (wt :: running').Perm s.running :=
      perm_getD_cons_eraseIdx _ _ hidx
    have hwtmem : wt ∈ s.running := hpermrun.subset (List.mem_cons_self _ _)
    have hlen' : running'.length = s.running.length - 1 := by
      rw [hrunE, List.length_eraseIdx, if_pos hidx]
    have hsub' : ∀ p ∈ running', p ∈ s.running := by
      intro p hp
      exact (List.eraseIdx_sublist _ _).subset hp
    have hsndcnt : ∀ a, List.count a (s.running.map Prod.snd)
        = (if wt.2 = a then 1 else 0) + List.count a (running'.map Prod.snd) := by
      intro a
      have := (hpermrun.map Prod.snd).count_eq a
      simp only [List.map_cons, List.count_cons] at this
      rw [← this]
      by_cases hb : wt.2 = a
      · simp [hb]
        omega
      · simp [hb]
    have hcnt := fun a => hperm.count_eq a
    have hdlen : s.queue.length + s.running.length + s.draws.length
        + s.failed.length + s.lost.length = n := by
      have := hperm.length_eq
      simp only [List.length_append, List.length_map, List.length_range] at this
      omega
    cases ho : outcomes wt.2 with
    | cropFailure =>
      refine ⟨hn, htot, hcre, ?_, hdr, hfl, ?_, hres, hstl, htrm, ?_, ?_⟩
      · rw [List.perm_iff_count]
        intro a
        have h1 := hcnt a
        have h2 := hsndcnt a
        simp only [List.count_append, List.count_cons] at h1 h2 ⊢
        by_cases hb : wt.2 = a <;> simp [hb] at h1 h2 ⊢ <;> omega
      · intro t ht
        rcases List.mem_append.mp ht with h | h
        · exact hls t h
        · rw [List.mem_singleton.mp h]
          exact ho
      · exact fun p hp => hwlt p (hsub' p hp)
      · intro hall _
        exact absurd ho (hall wt.2)
    | workerError =>
      cases hq : s.queue with
      | nil =>
        refine ⟨hn, htot, hcre, ?_, hdr, ?_, hls, hres, hstl, htrm, ?_, ?_⟩
        · rw [List.perm_iff_count]
          intro a
          have h1 := hcnt a
          have h2 := hsndcnt a
          rw [hq] at h1
          simp only [List.count_append, List.count_cons] at h1 h2 ⊢
          by_cases hb : wt.2 = a <;> simp [hb] at h1 h2 ⊢ <;> omega
        · intro t ht
          rcases List.mem_append.mp ht with h | h
          · exact hfl t h
          · rw [List.mem_singleton.mp h]
            exact ho
        · exact fun p hp => hwlt p (hsub' p hp)
        · intro _ habs
          exact absurd rfl habs
      | cons t q =>
        refine ⟨hn, htot, hcre, ?_, hdr, ?_, hls, hres, hstl, htrm, ?_, ?_⟩
        · rw [List.perm_iff_count]
          intro a
          have h1 := hcnt a
          have h2 := hsndcnt a
          rw [hq] at h1
          simp only [List.count_append, List.count_cons, List.map_append,
            List.map_cons, List.map_nil] at h1 h2 ⊢
          by_cases hb : wt.2 = a <;> by_cases hb2 : t = a <;>
            simp [hb, hb2] at h1 h2 ⊢ <;> omega
        · intro u hu
          rcases List.mem_append.mp hu with h | h
          · exact hfl u h
          · rw [List.mem_singleton.mp h]
            exact ho
        · intro p hp
          rcases List.mem_append.mp hp with h | h
          · exact hwlt p (hsub' p h)
          · rw [List.mem_singleton.mp h]
            exact hwlt wt hwtmem
        · intro hall _
          have hql : s.queue ≠ [] := by rw [hq]; simp
          have := hqr hall hql
          simp only [List.length_append, List.length_cons, List.length_nil]
          omega
    | success =>
      have hdlt : s.draws.length < n := by omega
      have hsf : s.settled = false := by
        cases hsv : s.settled
        · rfl
        · rw [hsv] at hstl
          have := hstl.mp rfl
          omega
      have hterm0 : s.terminatedCount = 0 := by
        rw [htrm, hsf]
        simp
      cases hq : s.queue with
      | nil =>
        refine ⟨hn, htot, hcre, ?_, ?_, hfl, hls, ?_, ?_, ?_, ?_, ?_⟩
        · rw [List.perm_iff_count]
          intro a
          have h1 := hcnt a
          have h2 := hsndcnt a
          rw [hq] at h1
          simp only [List.count_append, List.count_cons] at h1 h2 ⊢
          by_cases hb : wt.2 = a <;> simp [hb] at h1 h2 ⊢ <;> omega
        · intro u hu
          rcases List.mem_append.mp hu with h | h
          · exact hdr u h
          · rw [List.mem_singleton.mp h]
            exact ho
        · simp [hres]
        · rw [htot]
          simp only [hsf, Bool.false_or]
          constructor
          · intro h
            exact of_decide_eq_true h
          · intro h
            exact decide_eq_true h
        · rw [htot, hsf, hterm0]
          by_cases hfin : s.resolvedTasks + 1 = n <;> simp [hfin, hcre]
        · exact fun p hp => hwlt p (hsub' p hp)
        · intro _ habs
          exact absurd rfl habs
      | cons t q =>
        refine ⟨hn, htot, hcre, ?_, ?_, hfl, hls, ?_, ?_, ?_, ?_, ?_⟩
        · rw [List.perm_iff_count]
          intro a
          have h1 := hcnt a
          have h2 := hsndcnt a
          rw [hq] at h1
          simp only [List.count_append, List.count_cons, List.map_append,
            List.map_cons, List.map_nil] at h1 h2 ⊢
          by_cases hb : wt.2 = a <;> by_cases hb2 : t = a <;>
            simp [hb, hb2] at h1 h2 ⊢ <;> omega
        · intro u hu
          rcases List.mem_append.mp hu with h | h
          · exact hdr u h
          · rw [List.mem_singleton.mp h]
            exact ho
        · simp [hres]
        · rw [htot]
          simp only [hsf, Bool.false_or]
          constructor
          · intro h
            exact of_decide_eq_true h
          · intro h
            exact decide_eq_true h
        · rw [htot, hsf, hterm0]
          by_cases hfin : s.resolvedTasks + 1 = n <;> simp [hfin, hcre]
        · intro p hp
          rcases List.mem_append.mp hp with h | h
          · exact hwlt p (hsub' p h)
          · rw [List.mem_singleton.mp h]
            exact hwlt wt hwtmem
        · intro hall _
          have hql : s.queue ≠ [] := by rw [hq]; simp
          have := hqr hall hql
          simp only [List.length_append, List.length_cons, List.length_nil]
          omega

theorem schedInv_runSteps (outcomes : ℕ → TaskOutcome) (n m : ℕ) (sched : List ℕ)
    (s : Sched) (hinv : SchedInv outcomes n m s) :
    SchedInv outcomes n m (runSteps outcomes sched s) := by
  induction sched generalizing s with
  | nil => exact hinv
  | cons c cs ih =>
    exact ih (step outcomes s c) (schedInv_step outcomes n m s c hinv)

theorem step_created (outcomes : ℕ → TaskOutcome) (s : Sched) (c : ℕ) :
    (step outcomes s c).created = s.created := by
  unfold step
  by_cases hemp : s.running.isEmpty
  · rw [if_pos hemp]
  · rw [if_neg hemp]
    dsimp only
    cases outcomes (s.running.getD (c % s.running.length) (0, 0)).2 with
    | cropFailure => rfl
    | workerError => cases s.queue <;> rfl
    | success => cases s.queue <;> rfl

theorem draws_perm_of_success_done (outcomes : ℕ → TaskOutcome) (n m : ℕ)
    (sched : List ℕ) (hn : 1 ≤ n)
    (hall : ∀ t, outcomes t = TaskOutcome.success)
    (hdone : runDone (runSteps outcomes sched (initSched n m))) :
    (runSteps outcomes sched (initSched n m)).draws.Perm (List.range n) := by
  obtain ⟨_, _, _, hperm, _, hfl, hls, _, _, _, _, _⟩ :=
    schedInv_runSteps outcomes n m sched (initSched n m)
      (schedInv_init outcomes n m hn)
  obtain ⟨hq, hr⟩ := hdone
  have hfail : (runSteps outcomes sched (initSched n m)).failed = [] := by
    rw [List.eq_nil_iff_forall_not_mem]
    intro t ht
    have := hfl t ht
    rw [hall t] at this
    exact absurd this (by intro h; cases h)
  have hlost : (runSteps outcomes sched (initSched n m)).lost = [] := by
    rw [List.eq_nil_iff_forall_not_mem]
    intro t ht
    have := hls t ht
    rw [hall t] at this
    exact absurd this (by intro h; cases h)
  rw [hq, hr, hfail, hlost] at hperm
  simpa using hperm

theorem settled_false_of_failure (outcomes : ℕ → TaskOutcome) (n m : ℕ)
    (sched : List ℕ) (hn : 1 ≤ n) (t0 : ℕ) (ht0 : t0 < n)
    (hbad : outcomes t0 ≠ TaskOutcome.success) :
    (runSteps outcomes sched (initSched n m)).settled = false ∧
    (runSteps outcomes sched (initSched n m)).terminatedCount = 0 := by
  obtain ⟨_, _, _, hperm, hdr, _, _, hres, hstl, htrm, _, _⟩ :=
    schedInv_runSteps outcomes n m sched (initSched n m)
      (schedInv_init outcomes n m hn)
  set fin := runSteps outcomes sched (initSched n m) with hfin
  have hcntle : ∀ a, List.count a fin.draws ≤ 1 := by
    intro a
    have h1 : List.count a fin.draws
        ≤ List.count a (fin.queue ++ fin.running.map Prod.snd ++ fin.draws
          ++ fin.failed ++ fin.lost) := by
      simp only [List.count_append]
      omega
    have h2 := hperm.count_eq a
    have h3 : List.count a (List.range n) ≤ 1 :=
      List.nodup_iff_count_le_one.mp (List.nodup_range n) a
    omega
  have hnodup : fin.draws.Nodup := List.nodup_iff_count_le_one.mpr hcntle
  have hmemlt : ∀ a ∈ fin.draws, a < n := by
    intro a ha
    have h1 : 1 ≤ List.count a fin.draws := List.one_le_count_iff.mpr ha
    have h2 : List.count a fin.draws
        ≤ List.count a (fin.queue ++ fin.running.map Prod.snd ++ fin.draws
          ++ fin.failed ++ fin.lost) := by
      simp only [List.count_append]
      omega
    have h3 := hperm.count_eq a
    have h4 : 0 < List.count a (List.range n) := by omega
    have := List.count_pos_iff.mp h4
    simpa using this
  have ht0nd : t0 ∉ fin.draws := by
    intro hmem
    exact hbad (hdr t0 hmem)
  have hsubset : fin.draws.toFinset ⊆ (Finset.range n).erase t0 := by
    intro a ha
    rw [List.mem_toFinset] at ha
    rw [Finset.mem_erase]
    exact ⟨fun he => ht0nd (he ▸ ha), Finset.mem_range.mpr (hmemlt a ha)⟩
  have hcard : fin.draws.length ≤ n - 1 := by
    have h1 := Finset.card_le_card hsubset
    rw [List.toFinset_card_of_nodup hnodup] at h1
    rw [Finset.card_erase_of_mem (Finset.mem_range.mpr ht0), Finset.card_range] at h1
    exact h1
  have hne : fin.resolvedTasks ≠ n := by
    rw [hres]
    omega
  have hsf : fin.settled = false := by
    cases hsv : fin.settled
    · rfl
    · exact absurd (hstl.mp hsv) hne
  refine ⟨hsf, ?_⟩
  rw [htrm, hsf]
  simp

theorem stripeCount_eq_min (width height xPixels yPixels : ℕ) :
    stripeCount width height xPixels yPixels = min xPixels yPixels := by
  unfold stripeCount outerValues
  by_cases h : shouldAllocateByRows xPixels yPixels = true
  · have hlt : yPixels < xPixels := by simpa [shouldAllocateByRows] using h
    rw [if_pos h]
    unfold individualSectionHeights
    rw [length_sectionSizes]
    omega
  · have hle : xPixels ≤ yPixels := by
      simp [shouldAllocateByRows] at h
      omega
    rw [if_neg h]
    unfold individualSectionWidths
    rw [length_sectionSizes]
    omega

/-- **C6, counterexample**: with one stripe whose worker errors, the call
never settles and the created worker is never terminated (the claim demands
a failing call with teardown); with two stripes where the first errors, the
second queued stripe is still started and drawn (the claim demands that no
remaining queued task start). -/
theorem scheduler_failure_counterexample :
    ((runSteps (fun _ => TaskOutcome.workerError) [0] (initSched 1 1)).created = 1 ∧
     (runSteps (fun _ => TaskOutcome.workerError) [0] (initSched 1 1)).terminatedCount = 0 ∧
     (runSteps (fun _ => TaskOutcome.workerError) [0] (initSched 1 1)).settled = false ∧
     runDone (runSteps (fun _ => TaskOutcome.workerError) [0] (initSched 1 1))) ∧
    ((runSteps (fun t => if t = 0 then TaskOutcome.workerError else TaskOutcome.success)
        [0, 0] (initSched 2 1)).draws = [1] ∧
     (runSteps (fun t => if t = 0 then TaskOutcome.workerError else TaskOutcome.success)
        [0, 0] (initSched 2 1)).terminatedCount = 0 ∧
     runDone (runSteps (fun t => if t = 0 then TaskOutcome.workerError else TaskOutcome.success)
        [0, 0] (initSched 2 1))) := by
  constructor
  · constructor
    · decide
    · constructor
      · decide
      · constructor
        · decide
        · constructor <;> decide
  · constructor
    · decide
    · constructor
      · decide
      · constructor <;> decide

/-- **C6, amended**: if any stripe task fails, the call never settles (the
outer promise has no reject path) and no executor is ever terminated, while
an executor whose task errored still pulls the next queued task; executors
are terminated (exactly once, all together) only on runs in which every
stripe succeeds. -/
theorem scheduler_failure_no_teardown :
    (∀ (outcomes : ℕ → TaskOutcome) (n m : ℕ) (sched : List ℕ), 1 ≤ n →
      (∃ t, t < n ∧ outcomes t ≠ TaskOutcome.success) →
      (runSteps outcomes sched (initSched n m)).settled = false ∧
      (runSteps outcomes sched (initSched n m)).terminatedCount = 0) ∧
    (∀ (outcomes : ℕ → TaskOutcome) (n m : ℕ) (sched : List ℕ), 1 ≤ n →
      (∀ t, outcomes t = TaskOutcome.success) →
      runDone (runSteps outcomes sched (initSched n m)) →
      (runSteps outcomes sched (initSched n m)).settled = true ∧
      (runSteps outcomes sched (initSched n m)).terminatedCount
        = (runSteps outcomes sched (initSched n m)).created) ∧
    (∀ (outcomes : ℕ → TaskOutcome) (s : Sched) (c : ℕ) (t : ℕ) (q : List ℕ),
      s.running.isEmpty = false →
      outcomes (s.running.getD (c % s.running.length) (0, 0)).2
        = TaskOutcome.workerError →
      s.queue = t :: q →
      (step outcomes s c).queue = q ∧
      (step outcomes s c).running
        = s.running.eraseIdx (c % s.running.length)
          ++ [((s.running.getD (c % s.running.length) (0, 0)).1, t)]) := by
  refine ⟨?_, ?_, ?_⟩
  · intro outcomes n m sched hn hbad
    obtain ⟨t0, ht0, hb⟩ := hbad
    exact settled_false_of_failure outcomes n m sched hn t0 ht0 hb
  · intro outcomes n m sched hn hall hdone
    obtain ⟨_, _, _, _, _, _, _, hres, hstl, htrm, _, _⟩ :=
      schedInv_runSteps outcomes n m sched (initSched n m)
        (schedInv_init outcomes n m hn)
    have hp := draws_perm_of_success_done outcomes n m sched hn hall hdone
    have hlen : (runSteps outcomes sched (initSched n m)).draws.length = n := by
      rw [hp.length_eq, List.length_range]
    have hset : (runSteps outcomes sched (initSched n m)).settled = true :=
      hstl.mpr (by rw [hres, hlen])
    refine ⟨hset, ?_⟩
    rw [htrm, hset]
    simp
  · intro outcomes s c t q hre ho hq
    unfold step
    rw [if_neg (by rw [hre]; exact fun h => nomatch h)]
    dsimp only
    rw [ho, hq]
    exact ⟨rfl, rfl⟩

/-- Witness for `scheduler_failure_no_teardown`: one failing stripe leaves
the pool unterminated and the call unsettled. -/
theorem scheduler_failure_no_teardown_witness :
    (runSteps (fun _ => TaskOutcome.workerError) [0] (initSched 1 1)).settled = false ∧
    (runSteps (fun _ => TaskOutcome.workerError) [0] (initSched 1 1)).terminatedCount = 0 :=
  scheduler_failure_no_teardown.1 (fun _ => TaskOutcome.workerError) 1 1 [0]
    (by decide) ⟨0, by decide, by decide⟩

/-! ### Worker pool sizing

`this._maxWorkers = options.maxWorkers || navigator.hardwareConcurrency || 4`
(src/index.js line 94); `maxProcesses = Math.min(tasks.length, maxWorkers)`
(line 241). -/

/-- JS `a || b` on an optional numeric value (`undefined` and `0` are both
falsy). -/
def jsOrNat (v : Option ℕ) (fallback : ℕ) : ℕ :=
  match v with
  | none => fallback
  | some k => if k = 0 then fallback else k

/-- `options.maxWorkers || navigator.hardwareConcurrency || 4`
(src/index.js line 94). -/
def resolveMaxWorkers (optMaxWorkers hardwareConcurrency : Option ℕ) : ℕ :=
  jsOrNat optMaxWorkers (jsOrNat hardwareConcurrency 4)

theorem resolveMaxWorkers_pos (optMax hw : Option ℕ) :
    1 ≤ resolveMaxWorkers optMax hw := by
  unfold resolveMaxWorkers jsOrNat
  cases optMax with
  | none =>
    cases hw with
    | none => decide
    | some k =>
      by_cases hk : k = 0 <;> simp [hk] <;> omega
  | some k =>
    cases hw with
    | none =>
      by_cases hk : k = 0 <;> simp [hk] <;> omega
    | some k2 =>
      by_cases hk : k = 0 <;> by_cases hk2 : k2 = 0 <;> simp [hk, hk2] <;> omega

/-- **C9**: over one whole call, the number of executors ever created equals
`min(concurrencyLimit, stripeCount)` where the limit defaults through
`options.maxWorkers || navigator.hardwareConcurrency || 4`; no completion
event ever creates an executor (the finishing executor itself pulls the
next queued task), and every in-flight task is held by one of the initially
created executors. -/
theorem executor_pool_bounded_and_reused (width height xPixels yPixels : ℕ)
    (optMax hw : Option ℕ) (outcomes : ℕ → TaskOutcome) (sched : List ℕ)
    (hx : 1 ≤ xPixels) (hy : 1 ≤ yPixels) :
    1 ≤ resolveMaxWorkers optMax hw ∧
    resolveMaxWorkers none none = 4 ∧
    (∀ k, k ≠ 0 → resolveMaxWorkers (some k) hw = k) ∧
    (∀ k, k ≠ 0 → resolveMaxWorkers none (some k) = k) ∧
    (runSteps outcomes sched
        (initSched (stripeCount width height xPixels yPixels)
          (resolveMaxWorkers optMax hw))).created
      = min (resolveMaxWorkers optMax hw) (stripeCount width height xPixels yPixels) ∧
    (∀ (s : Sched) (c : ℕ), (step outcomes s c).created = s.created) ∧
    (∀ p ∈ (runSteps outcomes sched
        (initSched (stripeCount width height xPixels yPixels)
          (resolveMaxWorkers optMax hw))).running,
      p.1 < min (resolveMaxWorkers optMax hw) (stripeCount width height xPixels yPixels)) := by
  have hn : 1 ≤ stripeCount width height xPixels yPixels := by
    rw [stripeCount_eq_min]
    omega
  obtain ⟨_, _, hcre, _, _, _, _, _, _, _, hwlt, _⟩ :=
    schedInv_runSteps outcomes (stripeCount width height xPixels yPixels)
      (resolveMaxWorkers optMax hw) sched
      (initSched (stripeCount width height xPixels yPixels) (resolveMaxWorkers optMax hw))
      (schedInv_init outcomes _ _ hn)
  refine ⟨resolveMaxWorkers_pos optMax hw, rfl, ?_, ?_, ?_, step_created outcomes, ?_⟩
  · intro k hk
    unfold resolveMaxWorkers jsOrNat
    simp [hk]
  · intro k hk
    unfold resolveMaxWorkers jsOrNat
    simp [hk]
  · rw [hcre, Nat.min_comm]
  · intro p hp
    rw [Nat.min_comm]
    exact hwlt p hp

/-- Witness for `executor_pool_bounded_and_reused` on a 2x2 grid over a 2x2
source with the default pool size. -/
theorem executor_pool_bounded_and_reused_witness :
    (runSteps (fun _ => TaskOutcome.success) [0, 0]
        (initSched (stripeCount 2 2 2 2) (resolveMaxWorkers none none))).created
      = min (resolveMaxWorkers none none) (stripeCount 2 2 2 2) :=
  (executor_pool_bounded_and_reused 2 2 2 2 none none (fun _ => TaskOutcome.success)
    [0, 0] (by decide) (by decide)).2.2.2.2.1

/-! ### pixelate argument validation

`pixelate` (src/index.js lines 128-150) validates synchronously: a disposed
instance throws, then non-integer or non-positive cell counts throw
"Pixel dimensions must be positive integers" (the spec's InvalidDimension),
then cell counts exceeding the image dimensions throw "Pixel dimensions
cannot exceed image dimensions" (DimensionExceedsSource). Only afterwards is
`_pixelateElementToCanvas` invoked, which crops and spawns workers. -/

/-- JS `Number.isInteger` for a finite JS number embedded as `ℚ` (`NaN` and
the infinities are not finite and fall outside the embedding). -/
def numberIsInteger (q : ℚ) : Bool := q.den == 1

/-- The spec's taxonomy for the errors thrown by `pixelate`. -/
inductive PixelateError where
  | disposedInstance
  | invalidDimension
  | dimensionExceedsSource
  deriving DecidableEq, Repr

/-- The synchronous validation of `pixelate` (src/index.js lines 128-150),
checks in source order. -/
def validatePixelate (isDisposed : Bool) (xPixels yPixels : ℚ)
    (width height : ℕ) : Option PixelateError :=
  if isDisposed then some .disposedInstance
  else if numberIsInteger xPixels = false ∨ numberIsInteger yPixels = false
      ∨ xPixels ≤ 0 ∨ yPixels ≤ 0 then some .invalidDimension
  else if (width : ℚ) < xPixels ∨ (height : ℚ) < yPixels then
    some .dimensionExceedsSource
  else none

/-- The scheduler state standing for "no pipeline work was ever started":
no task queued, no executor created. -/
def emptySched : Sched :=
  { queue := [], running := [], created := 0, resolvedTasks := 0, draws := [],
    failed := [], lost := [], terminatedCount := 0, settled := false, total := 0 }

/-- `pixelate` as far as validation and scheduling are concerned: a
validation failure returns before `_pixelateElementToCanvas` runs, so the
scheduler state of a failed call is `emptySched`; a validated call runs the
stripe scheduler on `min(tasks, maxWorkers)` workers. -/
def pixelateCall (isDisposed : Bool) (xPixels yPixels : ℚ) (width height : ℕ)
    (optMax hw : Option ℕ) (outcomes : ℕ → TaskOutcome) (sched : List ℕ) :
    Option PixelateError × Sched :=
  match validatePixelate isDisposed xPixels yPixels width height with
  | some e => (some e, emptySched)
  | none =>
    (none, runSteps outcomes sched
      (initSched (stripeCount width height xPixels.num.toNat yPixels.num.toNat)
        (resolveMaxWorkers optMax hw)))

/-- **C5**: `pixelate` fails synchronously with InvalidDimension on a zero,
negative or non-integer cell count, and with DimensionExceedsSource when a
cell count exceeds the matching source extent, in both cases before any
crop is requested or any executor is spawned (the resulting scheduler state
is `emptySched`: zero created executors, nothing queued). -/
theorem pixelate_validation_synchronous (xPixels yPixels : ℚ) (width height : ℕ)
    (optMax hw : Option ℕ) (outcomes : ℕ → TaskOutcome) (sched : List ℕ) :
    ((numberIsInteger xPixels = false ∨ numberIsInteger yPixels = false
        ∨ xPixels ≤ 0 ∨ yPixels ≤ 0) →
      pixelateCall false xPixels yPixels width height optMax hw outcomes sched
        = (some PixelateError.invalidDimension, emptySched)) ∧
    (numberIsInteger xPixels = true → numberIsInteger yPixels = true →
      0 < xPixels → 0 < yPixels →
      ((width : ℚ) < xPixels ∨ (height : ℚ) < yPixels) →
      pixelateCall false xPixels yPixels width height optMax hw outcomes sched
        = (some PixelateError.dimensionExceedsSource, emptySched)) ∧
    emptySched.created = 0 ∧ emptySched.queue = [] ∧ emptySched.running = [] := by
  refine ⟨?_, ?_, rfl, rfl, rfl⟩
  · intro hinv
    unfold pixelateCall validatePixelate
    rw [if_neg (by simp), if_pos hinv]
  · intro hx hy hxpos hypos hexc
    unfold pixelateCall validatePixelate
    have hnx : numberIsInteger xPixels ≠ false := by
      rw [hx]
      exact fun h => nomatch h
    have hny : numberIsInteger yPixels ≠ false := by
      rw [hy]
      exact fun h => nomatch h
    rw [if_neg (by simp)]
    rw [if_neg (by push_neg; exact ⟨hnx, hny, hxpos, hypos⟩)]
    rw [if_pos hexc]

/-- Witness for `pixelate_validation_synchronous`: `pixelate(0, 8)` on a
10x10 source yields InvalidDimension; `pixelate(11, 2)` on the same source
yields DimensionExceedsSource; neither creates an executor. -/
theorem pixelate_validation_synchronous_witness :
    pixelateCall false 0 8 10 10 none none (fun _ => TaskOutcome.success) []
      = (some PixelateError.invalidDimension, emptySched) ∧
    pixelateCall false 11 2 10 10 none none (fun _ => TaskOutcome.success) []
      = (some PixelateError.dimensionExceedsSource, emptySched) :=
  ⟨(pixelate_validation_synchronous 0 8 10 10 none none (fun _ => TaskOutcome.success) []).1
      (Or.inr (Or.inr (Or.inl (by decide)))),
   (pixelate_validation_synchronous 11 2 10 10 none none (fun _ => TaskOutcome.success) []).2.1
      (by decide) (by decide) (by decide) (by decide) (Or.inl (by decide))⟩

/-! ### Pixels, canvases and CSS colors

The stripe worker (src/innerWorker.js) draws its crop onto a full-size
`OffscreenCanvas`, reads each inner cell back with `getImageData`, averages
it with `getSingleRGBA`, and fills the cell with a CSS
`rgba(r, g, b, a)` string whose channels the canvas clamps to `[0, 255]`
and rounds to the nearest integer and whose alpha slot is clamped to the
`[0, 1]` scale. Painting uses the default source-over composite. All
canvases below live in (outer, inner) coordinates: the two orientation
ternaries of the code swap `(x, y)` into `(outer, inner)` and back, which
`finalCanvas` performs at the boundary. -/

/-- One straight (non-premultiplied) RGBA pixel, one byte per channel. -/
structure RGBA where
  r : ℕ
  g : ℕ
  b : ℕ
  a : ℕ
  deriving DecidableEq, Repr

/-- The fully transparent pixel of a freshly created or resized canvas. -/
def transparent : RGBA := ⟨0, 0, 0, 0⟩

/-- A pixel grid addressed by (outer, inner) coordinates. -/
def Canvas : Type := ℕ → ℕ → RGBA

/-- A canvas whose backing store was just created or cleared. -/
def blankCanvas : Canvas := fun _ _ => transparent

/-- Rounding used by the canvas color pipeline: nearest integer, computed
as the floor of the value plus one half. -/
def roundByte (q : ℚ) : ℕ := ⌊q + 1 / 2⌋₊

/-- A CSS color channel as stored by the canvas: clamped to `[0, 255]` and
rounded to the nearest byte. -/
def cssChannel (q : ℚ) : ℕ := roundByte (max 0 (min 255 q))

/-- The CSS `rgba()` alpha slot: the value is clamped to the `[0, 1]`
alpha scale and stored as a byte. -/
def cssAlpha (q : ℚ) : ℕ := roundByte (255 * max 0 (min 1 q))

/-- The stored color of a CSS `rgba(r, g, b, aSlot)` fill style. -/
def rgbaColor (r g b aSlot : ℚ) : RGBA :=
  ⟨cssChannel r, cssChannel g, cssChannel b, cssAlpha aSlot⟩

/-- The alpha of a stored byte on the `[0, 1]` scale. -/
def alphaScale (a : ℕ) : ℚ := (a : ℚ) / 255

/-- Resulting alpha of source-over compositing. -/
def overAlpha (s d : RGBA) : ℚ :=
  alphaScale s.a + alphaScale d.a * (1 - alphaScale s.a)

/-- Resulting color channel of source-over compositing on straight alpha. -/
def overChannel (cs cd : ℕ) (s d : RGBA) : ℚ :=
  ((cs : ℚ) * alphaScale s.a + (cd : ℚ) * alphaScale d.a * (1 - alphaScale s.a))
    / overAlpha s d

/-- Porter-Duff source-over, the default canvas composite operation, on
straight RGBA bytes. -/
def srcOver (s d : RGBA) : RGBA :=
  if overAlpha s d = 0 then transparent
  else
    ⟨roundByte (overChannel s.r d.r s d), roundByte (overChannel s.g d.g s d),
     roundByte (overChannel s.b d.b s d), roundByte (255 * overAlpha s d)⟩

theorem roundByte_natCast (k : ℕ) : roundByte (k : ℚ) = k := by
  unfold roundByte
  rw [Nat.floor_eq_iff (by positivity)]
  constructor
  · norm_num
  · push_cast
    norm_num

theorem alphaScale_eq_zero_iff (a : ℕ) : alphaScale a = 0 ↔ a = 0 := by
  unfold alphaScale
  constructor
  · intro h
    have : (a : ℚ) = 0 := by
      field_simp at h
      exact_mod_cast h
    exact_mod_cast this
  · intro h
    rw [h]
    norm_num

theorem srcOver_opaque (s d : RGBA) (h : s.a = 255) : srcOver s d = s := by
  have hs : alphaScale s.a = 1 := by
    rw [h]
    unfold alphaScale
    norm_num
  have hover : overAlpha s d = 1 := by
    unfold overAlpha
    rw [hs]
    ring
  unfold srcOver
  rw [if_neg (by rw [hover]; norm_num)]
  have hch : ∀ cs cd : ℕ, overChannel cs cd s d = cs := by
    intro cs cd
    unfold overChannel
    rw [hs, hover]
    ring
  rw [hch s.r d.r, hch s.g d.g, hch s.b d.b, hover]
  rw [roundByte_natCast, roundByte_natCast, roundByte_natCast]
  rw [show (255 : ℚ) * 1 = ((255 : ℕ) : ℚ) by norm_num, roundByte_natCast]
  cases s
  simp_all

theorem srcOver_transparent_src (s d : RGBA) (h : s.a = 0) :
    srcOver s d = if d.a = 0 then transparent else d := by
  have hs : alphaScale s.a = 0 := (alphaScale_eq_zero_iff s.a).mpr h
  have hover : overAlpha s d = alphaScale d.a := by
    unfold overAlpha
    rw [hs]
    ring
  by_cases hd : d.a = 0
  · rw [if_pos hd]
    unfold srcOver
    rw [if_pos (by rw [hover, (alphaScale_eq_zero_iff d.a).mpr hd])]
  · rw [if_neg hd]
    have hdna : alphaScale d.a ≠ 0 := fun hc => hd ((alphaScale_eq_zero_iff d.a).mp hc)
    unfold srcOver
    rw [if_neg (by rw [hover]; exact hdna)]
    have hch : ∀ cs cd : ℕ, overChannel cs cd s d = cd := by
      intro cs cd
      unfold overChannel
      rw [hs, hover]
      field_simp
    have hal : (255 : ℚ) * overAlpha s d = (d.a : ℚ) := by
      rw [hover]
      unfold alphaScale
      field_simp
    rw [hch s.r d.r, hch s.g d.g, hch s.b d.b, hal]
    rw [roundByte_natCast, roundByte_natCast, roundByte_natCast, roundByte_natCast]

theorem srcOver_onto_blank (s : RGBA) :
    srcOver s transparent = if s.a = 0 then transparent else s := by
  by_cases hs : s.a = 0
  · rw [if_pos hs, srcOver_transparent_src s transparent hs]
    rfl
  · rw [if_neg hs]
    have hsna : alphaScale s.a ≠ 0 := fun hc => hs ((alphaScale_eq_zero_iff s.a).mp hc)
    have hover : overAlpha s transparent = alphaScale s.a := by
      unfold overAlpha
      show alphaScale s.a + alphaScale 0 * (1 - alphaScale s.a) = alphaScale s.a
      rw [(alphaScale_eq_zero_iff 0).mpr rfl]
      ring
    unfold srcOver
    rw [if_neg (by rw [hover]; exact hsna)]
    have hch : ∀ cs cd : ℕ, overChannel cs cd s transparent = cs := by
      intro cs cd
      unfold overChannel
      rw [hover]
      show ((cs : ℚ) * alphaScale s.a + (cd : ℚ) * alphaScale 0 * (1 - alphaScale s.a))
          / alphaScale s.a = cs
      rw [(alphaScale_eq_zero_iff 0).mpr rfl]
      field_simp
    have hal : (255 : ℚ) * overAlpha s transparent = (s.a : ℚ) := by
      rw [hover]
      unfold alphaScale
      field_simp
    rw [hch s.r transparent.r, hch s.g transparent.g, hch s.b transparent.b, hal]
    rw [roundByte_natCast, roundByte_natCast, roundByte_natCast, roundByte_natCast]

/-- The pixels of `ctx.getImageData(x, y, w, h)` in scan order, in
(outer, inner) coordinates. The code reads the cell rectangle whose outer
range is `[0, outerValue)` and whose inner range is
`[innerDimension, innerDimension + innerValue)` in both orientations; the
byte sums below are invariant under the scan order. -/
def regionPixels (cv : Canvas) (o0 i0 oLen iLen : ℕ) : List RGBA :=
  (List.range oLen).flatMap (fun o => (List.range iLen).map (fun i => cv (o0 + o) (i0 + i)))

/-- The flat `imageData.data` byte array of a region: four bytes per pixel. -/
def regionBytes (cv : Canvas) (o0 i0 oLen iLen : ℕ) : List ℕ :=
  (regionPixels cv o0 i0 oLen iLen).flatMap (fun p => [p.r, p.g, p.b, p.a])

/-- The channel sums of the `while` loop of `getSingleRGBA`
(src/innerWorker.js lines 12-20), walking the flat byte array in strides of
four. -/
def sumRGBA : List ℕ → ℕ × ℕ × ℕ × ℕ
  | r :: g :: b :: a :: rest =>
    let s := sumRGBA rest
    (r + s.1, g + s.2.1, b + s.2.2.1, a + s.2.2.2)
  | _ => (0, 0, 0, 0)

/-- `getSingleRGBA` (src/innerWorker.js lines 2-28): sum every channel over
the flat RGBA data, divide each sum by `valueOccurence = length / 4` and
floor. -/
def getSingleRGBA (rgbaData : List ℕ) : ℕ × ℕ × ℕ × ℕ :=
  let valueOccurence := rgbaData.length / 4
  let s := sumRGBA rgbaData
  (s.1 / valueOccurence, s.2.1 / valueOccurence, s.2.2.1 / valueOccurence,
   s.2.2.2 / valueOccurence)

/-- The exact-rational reading of the luminance expression
`0.299 * r + 0.587 * g + 0.114 * b` of the stripe worker (src/innerWorker.js
line 59), kept to compare against the double computation `luminanceJS`,
which is what the worker interpolates into the fill style — without
flooring. -/
def luminance (r g b : ℕ) : ℚ := 0.299 * r + 0.587 * g + 0.114 * b

/-- The double nearest the literal `0.299`. -/
def lit299 : ℚ := fl (299 / 1000)

/-- The double nearest the literal `0.587`. -/
def lit587 : ℚ := fl (587 / 1000)

/-- The double nearest the literal `0.114`. -/
def lit114 : ℚ := fl (114 / 1000)

/-- The luminance expression `0.299 * r + 0.587 * g + 0.114 * b` of the
stripe worker (src/innerWorker.js line 59), evaluated in IEEE-754 binary64:
the literals are the doubles nearest the decimals, integer channel values
convert exactly, and each product and (left-associated) addition rounds. -/
def luminanceJS (r g b : ℕ) : ℚ :=
  fl (fl (fl (lit299 * r) + fl (lit587 * g)) + fl (lit114 * b))

/-- The color the stripe worker's fill style stores for one cell
(src/innerWorker.js lines 57-63): the averaged channels, or the worker's
unrounded binary64 luminance in all three slots when grayscale is
requested, with the averaged alpha byte placed directly into the 0-to-1
alpha slot. -/
def fillColor (grayscale : Bool) (r g b a : ℕ) : RGBA :=
  if grayscale then
    rgbaColor (luminanceJS r g b) (luminanceJS r g b) (luminanceJS r g b) (a : ℚ)
  else rgbaColor (r : ℚ) (g : ℚ) (b : ℚ) (a : ℚ)

/-- `Math.floor(0.299 * r + 0.587 * g + 0.114 * b)` of the single-pass
downsample worker (src/unnamed/part_001 line 50). -/
def downsampleGray (r g b : ℕ) : ℕ := ⌊luminance r g b⌋₊

/-- The fill color of the single-pass downsample worker
(src/unnamed/part_001 lines 42-54): same floored channel means, but the
averaged alpha is divided by 255 before entering the `rgba()` alpha slot. -/
def downsampleFillColor (grayscale : Bool) (r g b a : ℕ) : RGBA :=
  if grayscale then
    rgbaColor (downsampleGray r g b : ℚ) (downsampleGray r g b : ℚ)
      (downsampleGray r g b : ℚ) ((a : ℚ) / 255)
  else rgbaColor (r : ℚ) (g : ℚ) (b : ℚ) ((a : ℚ) / 255)

/-- `ctx.fillRect(x, y, w, h)` under the default source-over composite, in
(outer, inner) coordinates. -/
def fillRect (cv : Canvas) (col : RGBA) (o0 i0 oLen iLen : ℕ) : Canvas :=
  fun o i =>
    if o0 ≤ o ∧ o < o0 + oLen ∧ i0 ≤ i ∧ i < i0 + iLen then srcOver col (cv o i)
    else cv o i

/-- `ctx.drawImage(bitmap, dx, dy)` under source-over, in (outer, inner)
coordinates; positions outside the translated bitmap are untouched. -/
def drawImage (cv bm : Canvas) (dOuter dInner : ℕ) : Canvas :=
  fun o i =>
    if dOuter ≤ o ∧ dInner ≤ i then srcOver (bm (o - dOuter) (i - dInner)) (cv o i)
    else cv o i

/-- The `createImageBitmap(element, sliceX, sliceY, sliceWidth, sliceHeight)`
crop of one stripe (src/index.js lines 256-262), in (outer, inner)
coordinates: the crop rectangle starts at the stripe's outer offset, spans
the stripe's outer extent and the full inner dimension. -/
def stripeBitmap (srcOI : Canvas) (innerTotal outerOff outerValue : ℕ) : Canvas :=
  fun o i => if o < outerValue ∧ i < innerTotal then srcOI (outerOff + o) i else transparent

/-- One iteration of the stripe worker's cell loop
(src/innerWorker.js lines 46-68): read the cell region from the current
canvas, average it, fill the cell rectangle, advance `innerDimension`. -/
def workerStep (grayscale : Bool) (outerValue : ℕ) (ci : Canvas × ℕ) (innerValue : ℕ) :
    Canvas × ℕ :=
  let q := getSingleRGBA (regionBytes ci.1 0 ci.2 outerValue innerValue)
  let col := fillColor grayscale q.1 q.2.1 q.2.2.1 q.2.2.2
  (fillRect ci.1 col 0 ci.2 outerValue innerValue, ci.2 + innerValue)

/-- The whole cell loop of the stripe worker over its inner partition. -/
def workerRun (grayscale : Bool) (outerValue : ℕ) (innerVals : List ℕ) (cv : Canvas) :
    Canvas :=
  (innerVals.foldl (workerStep grayscale outerValue) (cv, 0)).1

/-- The canvas of the stripe worker right after `ctx.drawImage(bitmap, 0, 0)`
onto the freshly created full-size `OffscreenCanvas`. -/
def stripeSourceCanvas (srcOI : Canvas) (innerTotal : ℕ) (outerVals : List ℕ) (t : ℕ) :
    Canvas :=
  drawImage blankCanvas
    (stripeBitmap srcOI innerTotal ((outerVals.take t).sum) (outerVals.getD t 0)) 0 0

/-- The result bitmap posted back by the stripe worker for stripe `t`
(src/innerWorker.js, whole `onmessage` handler). -/
def workerOutput (srcOI : Canvas) (innerTotal : ℕ) (grayscale : Bool)
    (outerVals innerVals : List ℕ) (t : ℕ) : Canvas :=
  workerRun grayscale (outerVals.getD t 0) innerVals
    (stripeSourceCanvas srcOI innerTotal outerVals t)

/-- The offset of entry `t` of a partition: offsets accumulate in partition
order (`outerDimension += outerValue`, src/index.js lines 233-238). -/
def offAt (l : List ℕ) (t : ℕ) : ℕ := (l.take t).sum

/-- The index of the partition entry whose half-open interval of extents
contains coordinate `j`. -/
def idxOf : List ℕ → ℕ → ℕ
  | [], _ => 0
  | v :: rest, j => if j < v then 0 else idxOf rest (j - v) + 1

/-- `ctx.drawImage(result, x, y)` of one finished stripe onto the
destination canvas (src/index.js lines 293-296): the offset is the stripe's
outer offset on the outer axis and zero on the inner axis. -/
def drawStripeOn (srcOI : Canvas) (innerTotal : ℕ) (grayscale : Bool)
    (outerVals innerVals : List ℕ) (cv : Canvas) (t : ℕ) : Canvas :=
  drawImage cv (workerOutput srcOI innerTotal grayscale outerVals innerVals t)
    (offAt outerVals t) 0

/-- The destination canvas after the stripes listed in `order` have been
drawn, in completion order, onto the freshly cleared destination. -/
def applyDraws (srcOI : Canvas) (innerTotal : ℕ) (grayscale : Bool)
    (outerVals innerVals : List ℕ) (order : List ℕ) : Canvas :=
  order.foldl (drawStripeOn srcOI innerTotal grayscale outerVals innerVals) blankCanvas

/-- The source in (outer, inner) coordinates: rows are the outer axis when
`shouldAllocateByRows` holds. -/
def sourceOuterInner (src : Canvas) (byRows : Bool) : Canvas :=
  if byRows then fun o i => src i o else src

/-- The destination raster of one whole pixelate call in (x, y)
coordinates, with stripes landing in completion order `order`. -/
def finalCanvas (src : Canvas) (width height xPixels yPixels : ℕ) (grayscale : Bool)
    (order : List ℕ) : Canvas :=
  fun x y =>
    applyDraws (sourceOuterInner src (shouldAllocateByRows xPixels yPixels))
      (if shouldAllocateByRows xPixels yPixels then width else height) grayscale
      (outerValues width height xPixels yPixels)
      (innerValues width height xPixels yPixels) order
      (if shouldAllocateByRows xPixels yPixels then y else x)
      (if shouldAllocateByRows xPixels yPixels then x else y)

theorem offAt_cons_succ (v : ℕ) (rest : List ℕ) (t : ℕ) :
    offAt (v :: rest) (t + 1) = v + offAt rest t := by
  simp [offAt]

theorem idxOf_lt_length (l : List ℕ) (j : ℕ) (hj : j < l.sum) :
    idxOf l j < l.length := by
  induction l generalizing j with
  | nil => simp at hj
  | cons v rest ih =>
    unfold idxOf
    by_cases h : j < v
    · rw [if_pos h]
      simp
    · rw [if_neg h]
      simp only [List.length_cons]
      have hj' : j - v < rest.sum := by
        simp only [List.sum_cons] at hj
        omega
      exact Nat.succ_lt_succ (ih (j - v) hj')

theorem idxOf_bounds (l : List ℕ) (j : ℕ) (hj : j < l.sum) :
    offAt l (idxOf l j) ≤ j ∧ j < offAt l (idxOf l j) + l.getD (idxOf l j) 0 := by
  induction l generalizing j with
  | nil => simp at hj
  | cons v rest ih =>
    unfold idxOf
    by_cases h : j < v
    · rw [if_pos h]
      unfold offAt
      simp only [List.take_zero, List.sum_nil, List.getD_cons_zero]
      omega
    · rw [if_neg h]
      have hj' : j - v < rest.sum := by
        simp only [List.sum_cons] at hj
        omega
      obtain ⟨h1, h2⟩ := ih (j - v) hj'
      rw [offAt_cons_succ]
      refine ⟨by omega, ?_⟩
      simp only [List.getD_cons_succ]
      omega

theorem idxOf_unique (l : List ℕ) (t j : ℕ) (ht : t < l.length)
    (h1 : offAt l t ≤ j) (h2 : j < offAt l t + l.getD t 0) : idxOf l j = t := by
  induction l generalizing t j with
  | nil => simp at ht
  | cons v rest ih =>
    cases t with
    | zero =>
      unfold offAt at h1 h2
      simp only [List.take_zero, List.sum_nil, List.getD_cons_zero] at h1 h2
      unfold idxOf
      rw [if_pos (by omega)]
    | succ t' =>
      rw [offAt_cons_succ] at h1 h2
      simp only [List.getD_cons_succ] at h2
      unfold idxOf
      rw [if_neg (by omega)]
      rw [ih t' (j - v) (by simpa using ht) (by omega) (by omega)]

theorem cssAlpha_natCast (a : ℕ) : cssAlpha (a : ℚ) = if a = 0 then 0 else 255 := by
  unfold cssAlpha
  by_cases h : a = 0
  · rw [if_pos h, h]
    norm_num
    unfold roundByte
    rw [Nat.floor_eq_iff (by norm_num)]
    norm_num
  · rw [if_neg h]
    have h1 : (1 : ℚ) ≤ (a : ℚ) := by
      have : 1 ≤ a := Nat.one_le_iff_ne_zero.mpr h
      exact_mod_cast this
    rw [min_eq_left h1, max_eq_right (by norm_num)]
    rw [show (255 : ℚ) * 1 = ((255 : ℕ) : ℚ) by norm_num, roundByte_natCast]

theorem cssChannel_natCast (n : ℕ) (h : n ≤ 255) : cssChannel (n : ℚ) = n := by
  unfold cssChannel
  rw [min_eq_right (by exact_mod_cast h), max_eq_right (by positivity),
    roundByte_natCast]

theorem cssAlpha_div255 (a : ℕ) (h : a ≤ 255) : cssAlpha ((a : ℚ) / 255) = a := by
  unfold cssAlpha
  have h1 : (a : ℚ) / 255 ≤ 1 := by
    rw [div_le_one (by norm_num)]
    exact_mod_cast h
  rw [min_eq_right h1, max_eq_right (by positivity)]
  rw [show (255 : ℚ) * ((a : ℚ) / 255) = (a : ℚ) by field_simp, roundByte_natCast]

/-- The nearest-integer value the canvas stores for the worker's unrounded
luminance: `round(luma)` computed over the integers. -/
def lumaRounded (r g b : ℕ) : ℕ := (2 * (299 * r + 587 * g + 114 * b) + 1000) / 2000

theorem luminance_eq_div (r g b : ℕ) :
    luminance r g b = ((299 * r + 587 * g + 114 * b : ℕ) : ℚ) / 1000 := by
  unfold luminance
  push_cast
  ring

theorem cssChannel_luminance (r g b : ℕ) (hr : r ≤ 255) (hg : g ≤ 255) (hb : b ≤ 255) :
    cssChannel (luminance r g b) = lumaRounded r g b := by
  rw [luminance_eq_div]
  set K := 299 * r + 587 * g + 114 * b with hK
  have hKle : K ≤ 255000 := by
    rw [hK]
    omega
  unfold cssChannel
  have h1 : ((K : ℕ) : ℚ) / 1000 ≤ 255 := by
    rw [div_le_iff (by norm_num)]
    have : ((K : ℕ) : ℚ) ≤ 255000 := by exact_mod_cast hKle
    linarith
  rw [min_eq_right h1, max_eq_right (by positivity)]
  unfold roundByte
  have h2 : ((K : ℕ) : ℚ) / 1000 + 1 / 2 = ((2 * K + 1000 : ℕ) : ℚ) / 2000 := by
    push_cast
    field_simp
    ring
  have h3 : ((2 * K + 1000 : ℕ) : ℚ) / ((2000 : ℕ) : ℚ)
      = ((2 * K + 1000 : ℕ) : ℚ) / 2000 := by norm_num
  rw [h2, ← h3, Nat.floor_div_nat, Nat.floor_natCast]
  rfl

theorem fillColor_false_eval (r g b a : ℕ) (hr : r ≤ 255) (hg : g ≤ 255)
    (hb : b ≤ 255) : fillColor false r g b a = ⟨r, g, b, if a = 0 then 0 else 255⟩ := by
  unfold fillColor rgbaColor
  rw [if_neg (by simp)]
  rw [cssChannel_natCast r hr, cssChannel_natCast g hg, cssChannel_natCast b hb,
    cssAlpha_natCast a]

theorem fillColor_true_eval (r g b a : ℕ) :
    fillColor true r g b a
      = ⟨cssChannel (luminanceJS r g b), cssChannel (luminanceJS r g b),
         cssChannel (luminanceJS r g b), if a = 0 then 0 else 255⟩ := by
  unfold fillColor rgbaColor
  rw [if_pos rfl, cssAlpha_natCast a]

theorem lit299_eq : lit299 = (5386305154335113 : ℚ) / 2 ^ 54 := by
  unfold lit299
  rw [fl_eq_down _ 5386305154335113 54 (by norm_num) (by norm_num)
    (by norm_num) (by norm_num)]
  norm_num

theorem lit587_eq : lit587 = (5287225962532962 : ℚ) / 2 ^ 53 := by
  unfold lit587
  rw [fl_eq_down _ 5287225962532962 53 (by norm_num) (by norm_num)
    (by norm_num) (by norm_num)]
  norm_num

theorem lit114_eq : lit114 = (8214565720323785 : ℚ) / 2 ^ 56 := by
  unfold lit114
  rw [fl_eq_up _ 8214565720323785 56 (by norm_num) (by norm_num)
    (by norm_num) (by norm_num)]
  norm_num

theorem fl_lit587 : fl lit587 = lit587 :=
  fl_fix _ 5287225962532962 53 (by norm_num) (by norm_num)
    (by rw [lit587_eq]; norm_num)

/-- `0.587 * 36` in doubles: `21.131999999999998`. -/
theorem fl_lit587_36 : fl (lit587 * 36) = (5948129207849582 : ℚ) / 2 ^ 48 := by
  rw [lit587_eq]
  rw [fl_eq_down _ 5948129207849582 48 (by norm_num) (by norm_num)
    (by norm_num) (by norm_num)]
  norm_num

/-- `0.114 * 12` in doubles: `1.368`, rounding up. -/
theorem fl_lit114_12 : fl (lit114 * 12) = (6160924290242839 : ℚ) / 2 ^ 52 := by
  rw [lit114_eq]
  rw [fl_eq_up _ 6160924290242839 52 (by norm_num) (by norm_num)
    (by norm_num) (by norm_num)]
  norm_num

/-- `21.131999999999998 + 1.368` in doubles: `22.499999999999996`. -/
theorem fl_sum_36_12 :
    fl ((5948129207849582 : ℚ) / 2 ^ 48 + (6160924290242839 : ℚ) / 2 ^ 52)
      = (6333186975989759 : ℚ) / 2 ^ 48 := by
  rw [fl_eq_down _ 6333186975989759 48 (by norm_num) (by norm_num)
    (by norm_num) (by norm_num)]
  norm_num

/-- The worker's grayscale luminance of averaged channels `(0, 1, 0)` is the
double `0.587` exactly. -/
theorem luminanceJS_0_1_0 : luminanceJS 0 1 0 = lit587 := by
  unfold luminanceJS
  rw [Nat.cast_zero, Nat.cast_one, mul_zero, mul_zero, mul_one, fl_zero,
    fl_lit587, zero_add, add_zero, fl_lit587, fl_lit587]

/-- The worker's grayscale luminance of averaged channels `(0, 36, 12)` is
the double `22.499999999999996`, strictly below the exact value `22.5`. -/
theorem luminanceJS_0_36_12 :
    luminanceJS 0 36 12 = (6333186975989759 : ℚ) / 2 ^ 48 := by
  unfold luminanceJS
  rw [Nat.cast_zero, mul_zero, fl_zero, zero_add]
  rw [show ((36 : ℕ) : ℚ) = (36 : ℚ) from by norm_num,
    show ((12 : ℕ) : ℚ) = (12 : ℚ) from by norm_num]
  rw [fl_lit587_36]
  rw [fl_fix ((5948129207849582 : ℚ) / 2 ^ 48) 5948129207849582 48 (by norm_num)
    (by norm_num) (by norm_num)]
  rw [fl_lit114_12, fl_sum_36_12]

theorem cssChannel_lum_0_36_12 :
    cssChannel ((6333186975989759 : ℚ) / 2 ^ 48) = 22 := by
  unfold cssChannel
  rw [min_eq_right (by norm_num), max_eq_right (by norm_num)]
  unfold roundByte
  rw [show (6333186975989759 : ℚ) / 2 ^ 48 + 1 / 2
      = ((12947848928690174 : ℕ) : ℚ) / ((562949953421312 : ℕ) : ℚ) from by norm_num]
  rw [Nat.floor_div_nat, Nat.floor_natCast]

theorem cssChannel_lit587 : cssChannel lit587 = 1 := by
  unfold cssChannel
  rw [lit587_eq]
  rw [min_eq_right (by norm_num), max_eq_right (by norm_num)]
  unfold roundByte
  rw [show (5287225962532962 : ℚ) / 2 ^ 53 + 1 / 2
      = ((19581651179806916 : ℕ) : ℚ) / ((18014398509481984 : ℕ) : ℚ) from by norm_num]
  rw [Nat.floor_div_nat, Nat.floor_natCast]

/-- **C10**: the stripe worker's fill interpolates the averaged alpha — an
integer in `[0, 255]` — directly into the `rgba()` alpha slot, which is on
a 0-to-1 scale, so the painted alpha is `255 * min(a, 1)`: any cell whose
average alpha is at least 1 is painted fully opaque and only a cell whose
average alpha is exactly 0 is painted transparent. The single-pass
downsample worker divides the averaged alpha by 255 first, so its painted
alpha is the averaged alpha itself; at average alpha 128 the two workers
paint alphas 255 and 128. -/
theorem alpha_slot_scale_mismatch (a : ℕ) (ha : a ≤ 255) :
    (∀ r g b : ℕ, (fillColor false r g b a).a = 255 * min a 1) ∧
    (∀ r g b : ℕ, (downsampleFillColor false r g b a).a = a) ∧
    (1 ≤ a → ∀ r g b : ℕ, (fillColor false r g b a).a = 255) ∧
    (a = 0 → ∀ r g b : ℕ, (fillColor false r g b a).a = 0) ∧
    (fillColor false 10 20 30 128).a = 255 ∧
    (downsampleFillColor false 10 20 30 128).a = 128 := by
  have hinner : ∀ r g b : ℕ, (fillColor false r g b a).a = if a = 0 then 0 else 255 := by
    intro r g b
    unfold fillColor rgbaColor
    rw [if_neg (by simp)]
    exact cssAlpha_natCast a
  have houter : ∀ r g b : ℕ, (downsampleFillColor false r g b a).a = a := by
    intro r g b
    unfold downsampleFillColor rgbaColor
    rw [if_neg (by simp)]
    exact cssAlpha_div255 a ha
  refine ⟨?_, houter, ?_, ?_, ?_, ?_⟩
  · intro r g b
    rw [hinner r g b]
    by_cases h : a = 0
    · simp [h]
    · have : 1 ≤ a := Nat.one_le_iff_ne_zero.mpr h
      rw [if_neg h]
      omega
  · intro h1 r g b
    rw [hinner r g b, if_neg (by omega)]
  · intro h0 r g b
    rw [hinner r g b, if_pos h0]
  · show (fillColor false 10 20 30 128).a = 255
    unfold fillColor rgbaColor
    rw [if_neg (by simp)]
    rw [cssAlpha_natCast 128]
    rfl
  · show (downsampleFillColor false 10 20 30 128).a = 128
    unfold downsampleFillColor rgbaColor
    rw [if_neg (by simp)]
    exact cssAlpha_div255 128 (by omega)

/-- Witness for `alpha_slot_scale_mismatch` at average alpha 128. -/
theorem alpha_slot_scale_mismatch_witness :
    (fillColor false 10 20 30 128).a = 255 * min 128 1 ∧
    (downsampleFillColor false 10 20 30 128).a = 128 :=
  ⟨(alpha_slot_scale_mismatch 128 (by decide)).1 10 20 30,
   (alpha_slot_scale_mismatch 128 (by decide)).2.1 10 20 30⟩

theorem sumRGBA_flatMap (ps : List RGBA) :
    sumRGBA (ps.flatMap (fun p => [p.r, p.g, p.b, p.a]))
      = ((ps.map RGBA.r).sum, (ps.map RGBA.g).sum, (ps.map RGBA.b).sum,
         (ps.map RGBA.a).sum) := by
  induction ps with
  | nil => rfl
  | cons p rest ih =>
    rw [List.flatMap_cons]
    show sumRGBA (p.r :: p.g :: p.b :: p.a
        :: rest.flatMap (fun p => [p.r, p.g, p.b, p.a])) = _
    simp only [sumRGBA, ih, List.map_cons, List.sum_cons]

theorem length_flatMap_rgba (ps : List RGBA) :
    (ps.flatMap (fun p => [p.r, p.g, p.b, p.a])).length = 4 * ps.length := by
  induction ps with
  | nil => rfl
  | cons p rest ih =>
    rw [List.flatMap_cons]
    simp only [List.length_append, List.length_cons, List.length_nil, ih]
    omega

/-- `getSingleRGBA` computes, for each channel independently, the floored
unweighted arithmetic mean over the pixels of the region. -/
theorem getSingleRGBA_eq_means (ps : List RGBA) :
    getSingleRGBA (ps.flatMap (fun p => [p.r, p.g, p.b, p.a]))
      = ((ps.map RGBA.r).sum / ps.length, (ps.map RGBA.g).sum / ps.length,
         (ps.map RGBA.b).sum / ps.length, (ps.map RGBA.a).sum / ps.length) := by
  unfold getSingleRGBA
  rw [length_flatMap_rgba, sumRGBA_flatMap]
  have h4 : 4 * ps.length / 4 = ps.length := by omega
  rw [h4]

theorem flatMap_congr_aux {α β : Type} (l : List α) (f g : α → List β)
    (h : ∀ a ∈ l, f a = g a) : l.flatMap f = l.flatMap g := by
  induction l with
  | nil => rfl
  | cons a rest ih =>
    rw [List.flatMap_cons, List.flatMap_cons, h a (List.mem_cons_self _ _),
      ih (fun x hx => h x (List.mem_cons_of_mem _ hx))]

theorem regionPixels_congr (cv cv' : Canvas) (o0 i0 oLen iLen : ℕ)
    (h : ∀ o i, o < oLen → i < iLen → cv (o0 + o) (i0 + i) = cv' (o0 + o) (i0 + i)) :
    regionPixels cv o0 i0 oLen iLen = regionPixels cv' o0 i0 oLen iLen := by
  unfold regionPixels
  apply flatMap_congr_aux
  intro o ho
  apply List.map_congr_left
  intro i hi
  exact h o i (List.mem_range.mp ho) (List.mem_range.mp hi)

theorem regionBytes_congr (cv cv' : Canvas) (o0 i0 oLen iLen : ℕ)
    (h : ∀ o i, o < oLen → i < iLen → cv (o0 + o) (i0 + i) = cv' (o0 + o) (i0 + i)) :
    regionBytes cv o0 i0 oLen iLen = regionBytes cv' o0 i0 oLen iLen := by
  unfold regionBytes
  rw [regionPixels_congr cv cv' o0 i0 oLen iLen h]

/-- The averaged color and resulting fill color of one cell, read from a
given stripe canvas: the region whose outer range is `[0, outerValue)` and
whose inner range is `[innerOff, innerOff + innerValue)`. -/
def cellColor (grayscale : Bool) (cv : Canvas) (outerValue innerOff innerValue : ℕ) :
    RGBA :=
  fillColor grayscale
    (getSingleRGBA (regionBytes cv 0 innerOff outerValue innerValue)).1
    (getSingleRGBA (regionBytes cv 0 innerOff outerValue innerValue)).2.1
    (getSingleRGBA (regionBytes cv 0 innerOff outerValue innerValue)).2.2.1
    (getSingleRGBA (regionBytes cv 0 innerOff outerValue innerValue)).2.2.2

theorem workerFold_aux (grayscale : Bool) (outerValue : ℕ) (cv0 : Canvas) :
    ∀ (rest done : List ℕ) (cv : Canvas),
      (∀ o i, done.sum ≤ i → cv o i = cv0 o i) →
      (∀ o i, i < done.sum →
        cv o i = if o < outerValue then
            srcOver (cellColor grayscale cv0 outerValue
              (offAt (done ++ rest) (idxOf (done ++ rest) i))
              ((done ++ rest).getD (idxOf (done ++ rest) i) 0)) (cv0 o i)
          else cv0 o i) →
      ∀ o i,
        (rest.foldl (workerStep grayscale outerValue) (cv, done.sum)).1 o i
          = if i < (done ++ rest).sum ∧ o < outerValue then
              srcOver (cellColor grayscale cv0 outerValue
                (offAt (done ++ rest) (idxOf (done ++ rest) i))
                ((done ++ rest).getD (idxOf (done ++ rest) i) 0)) (cv0 o i)
            else cv0 o i := by
  intro rest
  induction rest with
  | nil =>
    intro done cv hout hin o i
    simp only [List.foldl_nil]
    by_cases hc : i < (done ++ []).sum ∧ o < outerValue
    · rw [if_pos hc]
      have := hin o i (by simpa using hc.1)
      rw [this, if_pos hc.2]
    · rw [if_neg hc]
      by_cases hi : i < done.sum
      · have := hin o i hi
        rw [this]
        have hno : ¬ o < outerValue := by
          intro hov
          exact hc ⟨by simpa using hi, hov⟩
        rw [if_neg hno]
      · exact hout o i (by omega)
  | cons v rest' ih =>
    intro done cv hout hin o i
    rw [List.foldl_cons]
    have hregion : regionBytes cv 0 done.sum outerValue v
        = regionBytes cv0 0 done.sum outerValue v := by
      apply regionBytes_congr
      intro o' i' _ _
      simp only [Nat.zero_add]
      exact hout o' (done.sum + i') (by omega)
    have hstep : workerStep grayscale outerValue (cv, done.sum) v
        = (fillRect cv (cellColor grayscale cv0 outerValue done.sum v)
            0 done.sum outerValue v, done.sum + v) := by
      unfold workerStep cellColor
      rw [hregion]
    rw [hstep]
    have hsum : done.sum + v = (done ++ [v]).sum := by simp
    have hassoc : (done ++ [v]) ++ rest' = done ++ v :: rest' := by simp
    have hoff : offAt (done ++ v :: rest') done.length = done.sum := by
      unfold offAt
      rw [List.take_left]
    have hgetD : (done ++ v :: rest').getD done.length 0 = v := by
      rw [List.getD_eq_getElem?_getD, List.getElem?_append_right (le_refl _)]
      simp
    have h1 : ∀ o' i', (done ++ [v]).sum ≤ i' →
        fillRect cv (cellColor grayscale cv0 outerValue done.sum v)
          0 done.sum outerValue v o' i' = cv0 o' i' := by
      intro o' i' hi'
      rw [← hsum] at hi'
      unfold fillRect
      rw [if_neg (by omega)]
      exact hout o' i' (by omega)
    have h2 : ∀ o' i', i' < (done ++ [v]).sum →
        fillRect cv (cellColor grayscale cv0 outerValue done.sum v)
          0 done.sum outerValue v o' i'
          = if o' < outerValue then
              srcOver (cellColor grayscale cv0 outerValue
                (offAt ((done ++ [v]) ++ rest') (idxOf ((done ++ [v]) ++ rest') i'))
                (((done ++ [v]) ++ rest').getD (idxOf ((done ++ [v]) ++ rest') i') 0))
                (cv0 o' i')
            else cv0 o' i' := by
      intro o' i' hi'
      rw [← hsum] at hi'
      rw [hassoc]
      by_cases hilt : i' < done.sum
      · have huntouched : fillRect cv (cellColor grayscale cv0 outerValue done.sum v)
            0 done.sum outerValue v o' i' = cv o' i' := by
          unfold fillRect
          rw [if_neg (by omega)]
        rw [huntouched]
        exact hin o' i' hilt
      · have hidx : idxOf (done ++ v :: rest') i' = done.length := by
          apply idxOf_unique
          · simp only [List.length_append, List.length_cons]
            omega
          · rw [hoff]
            omega
          · rw [hoff, hgetD]
            omega
        rw [hidx, hoff, hgetD]
        unfold fillRect
        by_cases ho' : o' < outerValue
        · rw [if_pos (by omega), if_pos ho']
          rw [hout o' i' (by omega)]
        · rw [if_neg (by omega), if_neg ho']
          exact hout o' i' (by omega)
    have := ih (done ++ [v])
      (fillRect cv (cellColor grayscale cv0 outerValue done.sum v)
        0 done.sum outerValue v) h1 h2 o i
    rw [hsum]
    rw [this, hassoc]

/-- The stripe worker paints each inner cell, over the bitmap it drew, with
the fill color of that cell's average read from the drawn bitmap; pixels
outside the inner partition or the stripe's outer extent keep the drawn
bitmap. -/
theorem workerRun_pixel (grayscale : Bool) (outerValue : ℕ) (innerVals : List ℕ)
    (cv0 : Canvas) (o i : ℕ) :
    workerRun grayscale outerValue innerVals cv0 o i
      = if i < innerVals.sum ∧ o < outerValue then
          srcOver (cellColor grayscale cv0 outerValue
            (offAt innerVals (idxOf innerVals i))
            (innerVals.getD (idxOf innerVals i) 0)) (cv0 o i)
        else cv0 o i := by
  unfold workerRun
  have := workerFold_aux grayscale outerValue cv0 innerVals [] cv0
    (fun o i _ => rfl) (fun o i hi => by simp at hi) o i
  simpa using this

theorem srcOver_blank_idem (x : RGBA) :
    srcOver transparent (srcOver x transparent) = srcOver x transparent := by
  rw [srcOver_onto_blank x]
  by_cases hx : x.a = 0
  · rw [if_pos hx, srcOver_transparent_src transparent transparent rfl]
    rfl
  · rw [if_neg hx, srcOver_transparent_src transparent x rfl, if_neg hx]

theorem stripeSourceCanvas_pixel (srcOI : Canvas) (innerTotal : ℕ)
    (outerVals : List ℕ) (t o i : ℕ) :
    stripeSourceCanvas srcOI innerTotal outerVals t o i
      = srcOver (stripeBitmap srcOI innerTotal (offAt outerVals t)
          (outerVals.getD t 0) o i) transparent := by
  unfold stripeSourceCanvas drawImage blankCanvas offAt
  rw [if_pos ⟨Nat.zero_le o, Nat.zero_le i⟩]
  simp

/-- The worker's result bitmap is fully transparent outside the stripe
rectangle, provided the inner partition fits in the inner dimension. -/
theorem workerOutput_outside (srcOI : Canvas) (innerTotal : ℕ) (grayscale : Bool)
    (outerVals innerVals : List ℕ) (t : ℕ) (hinner : innerVals.sum ≤ innerTotal) :
    ∀ o i, outerVals.getD t 0 ≤ o ∨ innerTotal ≤ i →
      workerOutput srcOI innerTotal grayscale outerVals innerVals t o i
        = transparent := by
  intro o i hcond
  unfold workerOutput
  rw [workerRun_pixel]
  have hbase : stripeSourceCanvas srcOI innerTotal outerVals t o i = transparent := by
    rw [stripeSourceCanvas_pixel]
    have hbm : stripeBitmap srcOI innerTotal (offAt outerVals t)
        (outerVals.getD t 0) o i = transparent := by
      unfold stripeBitmap
      rw [if_neg (by omega)]
    rw [hbm, srcOver_transparent_src transparent transparent rfl]
    rfl
  rcases hcond with h | h
  · rw [if_neg (by omega), hbase]
  · have hni : ¬ i < innerVals.sum := by omega
    rw [if_neg (by tauto), hbase]

theorem foldl_draw_pixel (W : ℕ → Canvas) (vals : List ℕ) (innerTotal : ℕ)
    (hW : ∀ t, t < vals.length → ∀ o i,
      vals.getD t 0 ≤ o ∨ innerTotal ≤ i → W t o i = transparent) :
    ∀ (order processed : List ℕ) (cv : Canvas),
      (∀ t ∈ order, t < vals.length) →
      (processed ++ order).Nodup →
      (∀ o i, o < vals.sum → i < innerTotal →
        cv o i = if idxOf vals o ∈ processed
          then srcOver (W (idxOf vals o) (o - offAt vals (idxOf vals o)) i) transparent
          else transparent) →
      ∀ o i, o < vals.sum → i < innerTotal →
        (order.foldl (fun c t => drawImage c (W t) (offAt vals t) 0) cv) o i
          = if idxOf vals o ∈ processed ++ order
            then srcOver (W (idxOf vals o) (o - offAt vals (idxOf vals o)) i) transparent
            else transparent := by
  intro order
  induction order with
  | nil =>
    intro processed cv _ _ hcv o i ho hi
    simp only [List.foldl_nil, List.append_nil]
    exact hcv o i ho hi
  | cons t rest ih =>
    intro processed cv hbound hnodup hcv o i ho hi
    rw [List.foldl_cons]
    have ht : t < vals.length := hbound t (List.mem_cons_self _ _)
    have htnp : t ∉ processed := by
      intro hmem
      have hd := hnodup
      rw [List.nodup_append] at hd
      exact hd.2.2 hmem (List.mem_cons_self _ _)
    have hstep : ∀ o' i', o' < vals.sum → i' < innerTotal →
        drawImage cv (W t) (offAt vals t) 0 o' i'
          = if idxOf vals o' ∈ processed ++ [t]
            then srcOver (W (idxOf vals o') (o' - offAt vals (idxOf vals o')) i')
              transparent
            else transparent := by
      intro o' i' ho' hi'
      have hsb := idxOf_bounds vals o' ho'
      have hsl := idxOf_lt_length vals o' ho'
      unfold drawImage
      by_cases hs : idxOf vals o' = t
      · rw [if_pos ⟨by rw [← hs]; exact hsb.1, Nat.zero_le i'⟩]
        have hold : cv o' i' = transparent := by
          rw [hcv o' i' ho' hi', if_neg (by rw [hs]; exact htnp)]
        rw [hold, Nat.sub_zero, hs]
        rw [if_pos (by simp)]
      · have hmemiff : (idxOf vals o' ∈ processed ++ [t])
            ↔ (idxOf vals o' ∈ processed) := by
          simp only [List.mem_append, List.mem_singleton]
          constructor
          · intro h
            rcases h with h | h
            · exact h
            · exact absurd h hs
          · exact Or.inl
        simp only [hmemiff]
        by_cases hoff : offAt vals t ≤ o'
        · rw [if_pos ⟨hoff, Nat.zero_le i'⟩, Nat.sub_zero]
          have hWt : W t (o' - offAt vals t) i' = transparent := by
            apply hW t ht
            left
            have : ¬ (offAt vals t ≤ o' ∧ o' < offAt vals t + vals.getD t 0) := by
              intro hcontra
              exact hs (idxOf_unique vals t o' ht hcontra.1 hcontra.2)
            omega
          rw [hWt]
          rw [hcv o' i' ho' hi']
          by_cases hmem : idxOf vals o' ∈ processed
          · rw [if_pos hmem]
            exact srcOver_blank_idem _
          · rw [if_neg hmem, srcOver_transparent_src transparent transparent rfl]
            simp
        · rw [if_neg (by tauto)]
          rw [hcv o' i' ho' hi']
    have happ : processed ++ t :: rest = (processed ++ [t]) ++ rest := by simp
    rw [happ]
    apply ih (processed ++ [t]) (drawImage cv (W t) (offAt vals t) 0)
      (fun u hu => hbound u (List.mem_cons_of_mem _ hu))
      (by rw [← happ]; exact hnodup) hstep o i ho hi

theorem alphaScale_nonneg (a : ℕ) : 0 ≤ alphaScale a := by
  unfold alphaScale
  positivity

theorem alphaScale_le_one (a : ℕ) (ha : a ≤ 255) : alphaScale a ≤ 1 := by
  unfold alphaScale
  rw [div_le_one (by norm_num)]
  exact_mod_cast ha

theorem alphaScale_ge (a : ℕ) (ha : 1 ≤ a) : 1 / 255 ≤ alphaScale a := by
  unfold alphaScale
  have : (1 : ℚ) ≤ (a : ℚ) := by exact_mod_cast ha
  rw [div_le_div_iff (by norm_num) (by norm_num)]
  linarith

theorem srcOver_a_le (s d : RGBA) (hs : s.a ≤ 255) (hd : d.a ≤ 255) :
    (srcOver s d).a ≤ 255 := by
  unfold srcOver
  by_cases h0 : overAlpha s d = 0
  · rw [if_pos h0]
    exact Nat.zero_le _
  · rw [if_neg h0]
    show roundByte (255 * overAlpha s d) ≤ 255
    have hle : overAlpha s d ≤ 1 := by
      unfold overAlpha
      have h1 := alphaScale_le_one s.a hs
      have h2 := alphaScale_le_one d.a hd
      have h3 := alphaScale_nonneg s.a
      have h4 := alphaScale_nonneg d.a
      nlinarith
    unfold roundByte
    have : (255 : ℚ) * overAlpha s d + 1 / 2 ≤ 255 + 1 / 2 := by linarith
    calc ⌊(255 : ℚ) * overAlpha s d + 1 / 2⌋₊ ≤ ⌊(255 : ℚ) + 1 / 2⌋₊ :=
          Nat.floor_le_floor this
      _ = 255 := by
          rw [show (255 : ℚ) + 1 / 2 = ((255 : ℕ) : ℚ) + 1 / 2 from by norm_num]
          exact roundByte_natCast 255

theorem srcOver_wf (s d : RGBA) (hs : s.a ≤ 255) (hd : d.a ≤ 255) :
    srcOver s d = transparent ∨ (srcOver s d).a ≠ 0 := by
  by_cases h0 : overAlpha s d = 0
  · left
    unfold srcOver
    rw [if_pos h0]
  · right
    unfold srcOver
    rw [if_neg h0]
    show roundByte (255 * overAlpha s d) ≠ 0
    have hge : 1 / 255 ≤ overAlpha s d := by
      unfold overAlpha
      by_cases hsa : s.a = 0
      · have h1 : alphaScale s.a = 0 := (alphaScale_eq_zero_iff s.a).mpr hsa
        rw [h1]
        ring_nf
        have hda : d.a ≠ 0 := by
          intro hc
          apply h0
          unfold overAlpha
          rw [h1, (alphaScale_eq_zero_iff d.a).mpr hc]
          ring
        exact alphaScale_ge d.a (Nat.one_le_iff_ne_zero.mpr hda)
      · have h1 := alphaScale_ge s.a (Nat.one_le_iff_ne_zero.mpr hsa)
        have h2 := alphaScale_nonneg d.a
        have h3 := alphaScale_le_one s.a hs
        nlinarith
    have h15 : (3 : ℚ) / 2 ≤ 255 * overAlpha s d + 1 / 2 := by
      have : (1 : ℚ) ≤ 255 * overAlpha s d := by
        have := mul_le_mul_of_nonneg_left hge (show (0:ℚ) ≤ 255 by norm_num)
        calc (1 : ℚ) = 255 * (1 / 255) := by norm_num
          _ ≤ 255 * overAlpha s d := this
      linarith
    unfold roundByte
    have h1 : 1 ≤ ⌊(255 : ℚ) * overAlpha s d + 1 / 2⌋₊ := by
      apply Nat.le_floor
      push_cast
      linarith
    omega

theorem srcOver_onto_blank_of_wf (q : RGBA) (h : q = transparent ∨ q.a ≠ 0) :
    srcOver q transparent = q := by
  rw [srcOver_onto_blank q]
  rcases h with h | h
  · rw [h]
    simp
  · rw [if_neg h]

theorem cssAlpha_le_255 (q : ℚ) : cssAlpha q ≤ 255 := by
  unfold cssAlpha roundByte
  have h1 : (255 : ℚ) * max 0 (min 1 q) + 1 / 2 ≤ 255 + 1 / 2 := by
    have h2 : max 0 (min 1 q) ≤ 1 := by
      rw [max_le_iff]
      constructor
      · norm_num
      · exact le_trans (min_le_left 1 q) (le_refl 1)
    nlinarith
  calc ⌊(255 : ℚ) * max 0 (min 1 q) + 1 / 2⌋₊ ≤ ⌊(255 : ℚ) + 1 / 2⌋₊ :=
        Nat.floor_le_floor h1
    _ = 255 := by
        rw [show (255 : ℚ) + 1 / 2 = ((255 : ℕ) : ℚ) + 1 / 2 from by norm_num]
        exact roundByte_natCast 255

theorem fillColor_a_le (gs : Bool) (r g b a : ℕ) : (fillColor gs r g b a).a ≤ 255 := by
  unfold fillColor rgbaColor
  cases gs
  · rw [if_neg (by simp)]
    exact cssAlpha_le_255 _
  · rw [if_pos rfl]
    exact cssAlpha_le_255 _

theorem applyDraws_pixel (srcOI : Canvas) (innerTotal : ℕ) (grayscale : Bool)
    (outerVals innerVals : List ℕ) (order : List ℕ)
    (hinner : innerVals.sum ≤ innerTotal)
    (hperm : order.Perm (List.range outerVals.length)) :
    ∀ o i, o < outerVals.sum → i < innerTotal →
      applyDraws srcOI innerTotal grayscale outerVals innerVals order o i
        = srcOver (workerOutput srcOI innerTotal grayscale outerVals innerVals
            (idxOf outerVals o) (o - offAt outerVals (idxOf outerVals o)) i)
            transparent := by
  intro o i ho hi
  have hfun : drawStripeOn srcOI innerTotal grayscale outerVals innerVals
      = fun cv t => drawImage cv
          ((fun u => workerOutput srcOI innerTotal grayscale outerVals innerVals u) t)
          (offAt outerVals t) 0 := rfl
  unfold applyDraws
  rw [hfun]
  have h := foldl_draw_pixel
    (fun u => workerOutput srcOI innerTotal grayscale outerVals innerVals u)
    outerVals innerTotal
    (fun t _ o' i' hcond =>
      workerOutput_outside srcOI innerTotal grayscale outerVals innerVals t hinner
        o' i' hcond)
    order [] blankCanvas
    (fun t htmem => List.mem_range.mp ((hperm.mem_iff).mp htmem))
    (by
      simp only [List.nil_append]
      exact (hperm.nodup_iff).mpr (List.nodup_range _))
    (fun o' i' _ _ => by rw [if_neg (List.not_mem_nil _)]; rfl)
    o i ho hi
  rw [h]
  rw [if_pos]
  simp only [List.nil_append]
  exact (hperm.mem_iff).mpr (List.mem_range.mpr (idxOf_lt_length outerVals o ho))

/-- Evaluation of the whole pipeline on a single-column grid:
`pixelate(1, 1)` of a `1 x height` source, whichever schedule completes the
single stripe. The lone cell is averaged over the drawn bitmap
(`srcOver · transparent` of each source pixel, reflecting that a canvas
stores nothing for fully transparent pixels) and painted over it. -/
theorem finalCanvas_single_column (src : Canvas) (height : ℕ) (hh : 1 ≤ height)
    (hba : ∀ o i, (src o i).a ≤ 255) (gs : Bool) (y : ℕ) (hy : y < height) :
    finalCanvas src 1 height 1 1 gs [0] 0 y
      = srcOver (cellColor gs (fun o i => srcOver (src o i) transparent) 1 0 height)
          (srcOver (src 0 y) transparent) := by
  have hrows : shouldAllocateByRows 1 1 = false := rfl
  have houter : outerValues 1 height 1 1 = [1] := by
    unfold outerValues
    rw [hrows]
    show sectionSizes 1 1 = [1]
    rw [sectionSizes_eq_divFold]
    decide
  have hinner : innerValues 1 height 1 1 = [height] := by
    unfold innerValues
    rw [hrows]
    show sectionSizes height 1 = [height]
    rw [sectionSizes_eq_divFold]
    simp [Nat.mod_one, Nat.div_one]
  unfold finalCanvas
  rw [hrows, houter, hinner]
  simp only [Bool.false_eq_true, if_false]
  have hsrcOI : sourceOuterInner src false = src := rfl
  rw [hsrcOI]
  have happ := applyDraws_pixel src height gs [1] [height] [0]
    (by simp) (by decide) 0 y (by simp) hy
  rw [happ]
  have hidx0 : idxOf [1] 0 = 0 := by decide
  rw [hidx0]
  have hoff0 : offAt [1] 0 = 0 := rfl
  rw [hoff0]
  unfold workerOutput
  rw [workerRun_pixel]
  have hidxy : idxOf [height] y = 0 := by
    unfold idxOf
    rw [if_pos hy]
  rw [hidxy]
  have hoffy : offAt [height] 0 = 0 := rfl
  rw [hoffy]
  have hcond : y < [height].sum ∧ 0 - 0 < [1].getD 0 0 := by
    refine ⟨by simpa using hy, by decide⟩
  rw [if_pos hcond]
  have hgetD : [height].getD 0 0 = height := rfl
  have hgetD1 : [1].getD 0 0 = 1 := rfl
  rw [hgetD, hgetD1]
  have hbase : ∀ o' i', o' < 1 → i' < height →
      stripeSourceCanvas src height [1] 0 (0 + o') (0 + i')
        = srcOver (src (0 + o') (0 + i')) transparent := by
    intro o' i' ho' hi'
    rw [stripeSourceCanvas_pixel]
    have hbm : stripeBitmap src height (offAt [1] 0) ([1].getD 0 0) (0 + o') (0 + i')
        = src (0 + o') (0 + i') := by
      unfold stripeBitmap
      rw [if_pos (by constructor <;> omega)]
      rw [hoff0]
      simp only [Nat.zero_add]
    rw [hbm]
  have hcell : cellColor gs (stripeSourceCanvas src height [1] 0) 1 0 height
      = cellColor gs (fun o i => srcOver (src o i) transparent) 1 0 height := by
    unfold cellColor
    rw [regionBytes_congr (stripeSourceCanvas src height [1] 0)
      (fun o i => srcOver (src o i) transparent) 0 0 1 height
      (fun o' i' ho' hi' => hbase o' i' ho' hi')]
  rw [hcell]
  have hcv0 : stripeSourceCanvas src height [1] 0 (0 - 0) y
      = srcOver (src 0 y) transparent := by
    have := hbase 0 y (by omega) hy
    simpa using this
  rw [hcv0]
  apply srcOver_onto_blank_of_wf
  apply srcOver_wf
  · unfold cellColor
    exact fillColor_a_le _ _ _ _ _
  · exact srcOver_a_le (src 0 y) transparent (hba 0 y) (by decide)

/-- Mean of a list of bounded naturals is bounded. -/
theorem mean_le_of_bounded (l : List ℕ) (c : ℕ) (h : ∀ v ∈ l, v ≤ c) :
    l.sum / l.length ≤ c := by
  rcases Nat.eq_zero_or_pos l.length with hl | hl
  · rw [hl]
    simp
  · have hsum : l.sum ≤ c * l.length := by
      calc l.sum ≤ l.length • c := List.sum_le_card_nsmul l c h
        _ = c * l.length := by rw [smul_eq_mul]; ring
    calc l.sum / l.length ≤ c * l.length / l.length := Nat.div_le_div_right hsum
      _ = c := Nat.mul_div_cancel c hl

theorem mem_regionPixels (cv : Canvas) (o0 i0 oLen iLen : ℕ) (p : RGBA)
    (hp : p ∈ regionPixels cv o0 i0 oLen iLen) :
    ∃ o i, o < oLen ∧ i < iLen ∧ p = cv (o0 + o) (i0 + i) := by
  unfold regionPixels at hp
  rw [List.mem_flatMap] at hp
  obtain ⟨o, ho, hmem⟩ := hp
  rw [List.mem_map] at hmem
  obtain ⟨i, hi, rfl⟩ := hmem
  exact ⟨o, i, List.mem_range.mp ho, List.mem_range.mp hi, rfl⟩

theorem length_regionPixels (cv : Canvas) (o0 i0 oLen iLen : ℕ) :
    (regionPixels cv o0 i0 oLen iLen).length = oLen * iLen := by
  unfold regionPixels
  induction oLen with
  | zero => simp
  | succ n ih =>
    rw [List.range_succ, List.flatMap_append]
    simp only [List.length_append, ih]
    simp [Nat.succ_mul]

/-- The coordinate along the sliced (outer) axis of an (x, y) position. -/
def outerCoord (xPixels yPixels x y : ℕ) : ℕ :=
  if shouldAllocateByRows xPixels yPixels then y else x

/-- The coordinate along the inner axis of an (x, y) position. -/
def innerCoord (xPixels yPixels x y : ℕ) : ℕ :=
  if shouldAllocateByRows xPixels yPixels then x else y

/-- The full pixel extent of the inner axis. -/
def innerTotalOf (width height xPixels yPixels : ℕ) : ℕ :=
  if shouldAllocateByRows xPixels yPixels then width else height

/-- The stripe containing a destination position. -/
def stripeIndexAt (width height xPixels yPixels x y : ℕ) : ℕ :=
  idxOf (outerValues width height xPixels yPixels) (outerCoord xPixels yPixels x y)

/-- The inner cell containing a destination position. -/
def cellIndexAt (width height xPixels yPixels x y : ℕ) : ℕ :=
  idxOf (innerValues width height xPixels yPixels) (innerCoord xPixels yPixels x y)

/-- The worker canvas (drawn crop) of the stripe containing a position. -/
def stripeCanvasAt (src : Canvas) (width height xPixels yPixels x y : ℕ) : Canvas :=
  stripeSourceCanvas (sourceOuterInner src (shouldAllocateByRows xPixels yPixels))
    (innerTotalOf width height xPixels yPixels)
    (outerValues width height xPixels yPixels)
    (stripeIndexAt width height xPixels yPixels x y)

/-- The averaged RGBA value of the cell containing a destination position,
as the worker computes it. -/
def cellAverageAt (src : Canvas) (width height xPixels yPixels x y : ℕ) :
    ℕ × ℕ × ℕ × ℕ :=
  getSingleRGBA (regionBytes (stripeCanvasAt src width height xPixels yPixels x y) 0
    (offAt (innerValues width height xPixels yPixels)
      (cellIndexAt width height xPixels yPixels x y))
    ((outerValues width height xPixels yPixels).getD
      (stripeIndexAt width height xPixels yPixels x y) 0)
    ((innerValues width height xPixels yPixels).getD
      (cellIndexAt width height xPixels yPixels x y) 0))

theorem outerValues_sum (width height xPixels yPixels : ℕ)
    (hx : 1 ≤ xPixels) (hy : 1 ≤ yPixels) :
    (outerValues width height xPixels yPixels).sum
      = (if shouldAllocateByRows xPixels yPixels then height else width) := by
  unfold outerValues
  by_cases h : shouldAllocateByRows xPixels yPixels = true
  · rw [if_pos h, if_pos h]
    exact sectionSizes_sum height yPixels hy
  · rw [if_neg h, if_neg h]
    exact sectionSizes_sum width xPixels hx

theorem innerValues_sum (width height xPixels yPixels : ℕ)
    (hx : 1 ≤ xPixels) (hy : 1 ≤ yPixels) :
    (innerValues width height xPixels yPixels).sum
      = innerTotalOf width height xPixels yPixels := by
  unfold innerValues innerTotalOf
  by_cases h : shouldAllocateByRows xPixels yPixels = true
  · rw [if_pos h, if_pos h]
    exact sectionSizes_sum width xPixels hx
  · rw [if_neg h, if_neg h]
    exact sectionSizes_sum height yPixels hy

/-- Closed form of the destination raster: every in-bounds pixel is its
stripe's worker-output pixel composited onto the cleared destination,
independently of the completion order. -/
theorem finalCanvas_closed_form (src : Canvas) (width height xPixels yPixels : ℕ)
    (gs : Bool) (hx : 1 ≤ xPixels) (hxw : xPixels ≤ width) (hy : 1 ≤ yPixels)
    (hyh : yPixels ≤ height) (order : List ℕ)
    (hperm : order.Perm (List.range (stripeCount width height xPixels yPixels)))
    (x y : ℕ) (hxb : x < width) (hyb : y < height) :
    finalCanvas src width height xPixels yPixels gs order x y
      = srcOver (workerOutput
          (sourceOuterInner src (shouldAllocateByRows xPixels yPixels))
          (innerTotalOf width height xPixels yPixels) gs
          (outerValues width height xPixels yPixels)
          (innerValues width height xPixels yPixels)
          (stripeIndexAt width height xPixels yPixels x y)
          (outerCoord xPixels yPixels x y
            - offAt (outerValues width height xPixels yPixels)
                (stripeIndexAt width height xPixels yPixels x y))
          (innerCoord xPixels yPixels x y)) transparent := by
  have hinner : (innerValues width height xPixels yPixels).sum
      ≤ innerTotalOf width height xPixels yPixels := by
    rw [innerValues_sum width height xPixels yPixels hx hy]
  have hosum : outerCoord xPixels yPixels x y
      < (outerValues width height xPixels yPixels).sum := by
    rw [outerValues_sum width height xPixels yPixels hx hy]
    unfold outerCoord
    by_cases h : shouldAllocateByRows xPixels yPixels = true
    · rw [if_pos h, if_pos h]
      exact hyb
    · rw [if_neg h, if_neg h]
      exact hxb
  have hisum : innerCoord xPixels yPixels x y
      < innerTotalOf width height xPixels yPixels := by
    unfold innerCoord innerTotalOf
    by_cases h : shouldAllocateByRows xPixels yPixels = true
    · rw [if_pos h, if_pos h]
      exact hxb
    · rw [if_neg h, if_neg h]
      exact hyb
  have h := applyDraws_pixel
    (sourceOuterInner src (shouldAllocateByRows xPixels yPixels))
    (innerTotalOf width height xPixels yPixels) gs
    (outerValues width height xPixels yPixels)
    (innerValues width height xPixels yPixels) order hinner hperm
    (outerCoord xPixels yPixels x y) (innerCoord xPixels yPixels x y) hosum hisum
  unfold finalCanvas
  unfold outerCoord innerCoord innerTotalOf at h
  unfold stripeIndexAt outerCoord innerCoord innerTotalOf
  by_cases hb : shouldAllocateByRows xPixels yPixels = true
  · rw [hb] at h ⊢
    simpa using h
  · rw [Bool.not_eq_true] at hb
    rw [hb] at h ⊢
    simpa using h

theorem fillColor_alpha (gs : Bool) (r g b a : ℕ) :
    (fillColor gs r g b a).a = if a = 0 then 0 else 255 := by
  unfold fillColor rgbaColor
  cases gs
  · rw [if_neg (by simp)]
    exact cssAlpha_natCast a
  · rw [if_pos rfl]
    exact cssAlpha_natCast a

/-- Every in-bounds destination pixel is the cell's fill color composited
over the drawn crop at that position, composited onto the cleared
destination. -/
theorem finalCanvas_cell_form (src : Canvas) (width height xPixels yPixels : ℕ)
    (gs : Bool) (hx : 1 ≤ xPixels) (hxw : xPixels ≤ width) (hy : 1 ≤ yPixels)
    (hyh : yPixels ≤ height) (order : List ℕ)
    (hperm : order.Perm (List.range (stripeCount width height xPixels yPixels)))
    (x y : ℕ) (hxb : x < width) (hyb : y < height) :
    finalCanvas src width height xPixels yPixels gs order x y
      = srcOver
          (srcOver
            (fillColor gs (cellAverageAt src width height xPixels yPixels x y).1
              (cellAverageAt src width height xPixels yPixels x y).2.1
              (cellAverageAt src width height xPixels yPixels x y).2.2.1
              (cellAverageAt src width height xPixels yPixels x y).2.2.2)
            (stripeCanvasAt src width height xPixels yPixels x y
              (outerCoord xPixels yPixels x y
                - offAt (outerValues width height xPixels yPixels)
                    (stripeIndexAt width height xPixels yPixels x y))
              (innerCoord xPixels yPixels x y)))
          transparent := by
  rw [finalCanvas_closed_form src width height xPixels yPixels gs hx hxw hy hyh
    order hperm x y hxb hyb]
  congr 1
  unfold workerOutput
  rw [workerRun_pixel]
  have hosum : outerCoord xPixels yPixels x y
      < (outerValues width height xPixels yPixels).sum := by
    rw [outerValues_sum width height xPixels yPixels hx hy]
    unfold outerCoord
    by_cases h : shouldAllocateByRows xPixels yPixels = true
    · rw [if_pos h]
      simpa [h] using hyb
    · rw [if_neg h]
      simpa [h] using hxb
  have hisum : innerCoord xPixels yPixels x y
      < (innerValues width height xPixels yPixels).sum := by
    rw [innerValues_sum width height xPixels yPixels hx hy]
    unfold innerCoord innerTotalOf
    by_cases h : shouldAllocateByRows xPixels yPixels = true
    · rw [if_pos h, if_pos h]
      exact hxb
    · rw [if_neg h, if_neg h]
      exact hyb
  have hob := idxOf_bounds (outerValues width height xPixels yPixels)
    (outerCoord xPixels yPixels x y) hosum
  have hrel : outerCoord xPixels yPixels x y
      - offAt (outerValues width height xPixels yPixels)
          (stripeIndexAt width height xPixels yPixels x y)
      < (outerValues width height xPixels yPixels).getD
          (stripeIndexAt width height xPixels yPixels x y) 0 := by
    unfold stripeIndexAt
    omega
  rw [if_pos ⟨hisum, hrel⟩]
  rfl

/-- Painted cells: when the averaged alpha of the cell is at least 1, the
destination pixel is exactly the cell fill color. -/
theorem finalCanvas_painted (src : Canvas) (width height xPixels yPixels : ℕ)
    (gs : Bool) (hx : 1 ≤ xPixels) (hxw : xPixels ≤ width) (hy : 1 ≤ yPixels)
    (hyh : yPixels ≤ height) (order : List ℕ)
    (hperm : order.Perm (List.range (stripeCount width height xPixels yPixels)))
    (x y : ℕ) (hxb : x < width) (hyb : y < height)
    (hpaint : 1 ≤ (cellAverageAt src width height xPixels yPixels x y).2.2.2) :
    finalCanvas src width height xPixels yPixels gs order x y
      = fillColor gs (cellAverageAt src width height xPixels yPixels x y).1
          (cellAverageAt src width height xPixels yPixels x y).2.1
          (cellAverageAt src width height xPixels yPixels x y).2.2.1
          (cellAverageAt src width height xPixels yPixels x y).2.2.2 := by
  rw [finalCanvas_cell_form src width height xPixels yPixels gs hx hxw hy hyh
    order hperm x y hxb hyb]
  have hca : (fillColor gs (cellAverageAt src width height xPixels yPixels x y).1
      (cellAverageAt src width height xPixels yPixels x y).2.1
      (cellAverageAt src width height xPixels yPixels x y).2.2.1
      (cellAverageAt src width height xPixels yPixels x y).2.2.2).a = 255 := by
    rw [fillColor_alpha, if_neg (by omega)]
  rw [ srcOver_opaque _ _ hca]
  apply srcOver_onto_blank_of_wf
  right
  rw [hca]
  omega

theorem sectionSizes_getD_pos (D N : ℕ) (hN : 1 ≤ N) (hND : N ≤ D) (j : ℕ)
    (hj : j < N) : 1 ≤ (sectionSizes D N).getD j 0 := by
  rw [sectionSizes_getD D N hN j hj]
  have : 1 ≤ D / N := (Nat.one_le_div_iff hN).mpr hND
  omega

theorem outerValues_getD_pos (width height xPixels yPixels : ℕ) (hx : 1 ≤ xPixels)
    (hxw : xPixels ≤ width) (hy : 1 ≤ yPixels) (hyh : yPixels ≤ height) (t : ℕ)
    (ht : t < (outerValues width height xPixels yPixels).length) :
    1 ≤ (outerValues width height xPixels yPixels).getD t 0 := by
  unfold outerValues at ht ⊢
  by_cases h : shouldAllocateByRows xPixels yPixels = true
  · rw [if_pos h] at ht ⊢
    refine sectionSizes_getD_pos height yPixels hy hyh t ?_
    rw [← length_sectionSizes height yPixels]
    exact ht
  · rw [if_neg h] at ht ⊢
    refine sectionSizes_getD_pos width xPixels hx hxw t ?_
    rw [← length_sectionSizes width xPixels]
    exact ht

theorem innerValues_getD_pos (width height xPixels yPixels : ℕ) (hx : 1 ≤ xPixels)
    (hxw : xPixels ≤ width) (hy : 1 ≤ yPixels) (hyh : yPixels ≤ height) (k : ℕ)
    (hk : k < (innerValues width height xPixels yPixels).length) :
    1 ≤ (innerValues width height xPixels yPixels).getD k 0 := by
  unfold innerValues at hk ⊢
  by_cases h : shouldAllocateByRows xPixels yPixels = true
  · rw [if_pos h] at hk ⊢
    refine sectionSizes_getD_pos width xPixels hx hxw k ?_
    rw [← length_sectionSizes width xPixels]
    exact hk
  · rw [if_neg h] at hk ⊢
    refine sectionSizes_getD_pos height yPixels hy hyh k ?_
    rw [← length_sectionSizes height yPixels]
    exact hk

theorem offAt_add_getD_le_sum (l : List ℕ) (k : ℕ) (hk : k < l.length) :
    offAt l k + l.getD k 0 ≤ l.sum := by
  induction l generalizing k with
  | nil => simp at hk
  | cons v rest ih =>
    cases k with
    | zero =>
      unfold offAt
      simp only [List.take_zero, List.sum_nil, List.getD_cons_zero, List.sum_cons]
      omega
    | succ k' =>
      rw [offAt_cons_succ]
      simp only [List.getD_cons_succ, List.sum_cons]
      have := ih k' (by simpa using hk)
      omega

/-- Inside the stripe rectangle, the worker's drawn canvas shows the
source pixel composited onto the blank canvas. -/
theorem stripeSourceCanvas_in_rect (srcOI : Canvas) (innerTotal : ℕ)
    (outerVals : List ℕ) (t o i : ℕ) (ho : o < outerVals.getD t 0)
    (hi : i < innerTotal) :
    stripeSourceCanvas srcOI innerTotal outerVals t o i
      = srcOver (srcOI (offAt outerVals t + o) i) transparent := by
  rw [stripeSourceCanvas_pixel]
  have hbm : stripeBitmap srcOI innerTotal (offAt outerVals t)
      (outerVals.getD t 0) o i = srcOI (offAt outerVals t + o) i := by
    unfold stripeBitmap
    rw [if_pos ⟨ho, hi⟩]
  rw [hbm]

/-- The averaged color of any cell of a constant source with nonzero alpha
is that constant pixel. -/
theorem cellAverageAt_const (p : RGBA) (hpa : p.a ≠ 0)
    (width height xPixels yPixels x y : ℕ) (hx : 1 ≤ xPixels) (hxw : xPixels ≤ width)
    (hy : 1 ≤ yPixels) (hyh : yPixels ≤ height) (hxb : x < width) (hyb : y < height) :
    cellAverageAt (fun _ _ => p) width height xPixels yPixels x y
      = (p.r, p.g, p.b, p.a) := by
  have hosum : outerCoord xPixels yPixels x y
      < (outerValues width height xPixels yPixels).sum := by
    rw [outerValues_sum width height xPixels yPixels hx hy]
    unfold outerCoord
    by_cases h : shouldAllocateByRows xPixels yPixels = true
    · rw [if_pos h, if_pos h]
      exact hyb
    · rw [if_neg h, if_neg h]
      exact hxb
  have hisum : innerCoord xPixels yPixels x y
      < (innerValues width height xPixels yPixels).sum := by
    rw [innerValues_sum width height xPixels yPixels hx hy]
    unfold innerCoord innerTotalOf
    by_cases h : shouldAllocateByRows xPixels yPixels = true
    · rw [if_pos h, if_pos h]
      exact hxb
    · rw [if_neg h, if_neg h]
      exact hyb
  have htlt : stripeIndexAt width height xPixels yPixels x y
      < (outerValues width height xPixels yPixels).length :=
    idxOf_lt_length _ _ hosum
  have hklt : cellIndexAt width height xPixels yPixels x y
      < (innerValues width height xPixels yPixels).length :=
    idxOf_lt_length _ _ hisum
  have hsrcOI : sourceOuterInner (fun _ _ => p)
      (shouldAllocateByRows xPixels yPixels) = fun _ _ => p := by
    unfold sourceOuterInner
    by_cases h : shouldAllocateByRows xPixels yPixels = true
    · rw [if_pos h]
    · rw [if_neg h]
  have hinrect : ∀ o' i',
      o' < (outerValues width height xPixels yPixels).getD
        (stripeIndexAt width height xPixels yPixels x y) 0 →
      i' < (innerValues width height xPixels yPixels).getD
        (cellIndexAt width height xPixels yPixels x y) 0 →
      stripeCanvasAt (fun _ _ => p) width height xPixels yPixels x y (0 + o')
        (offAt (innerValues width height xPixels yPixels)
          (cellIndexAt width height xPixels yPixels x y) + i')
        = srcOver p transparent := by
    intro o' i' ho' hi'
    unfold stripeCanvasAt
    rw [hsrcOI]
    have hilt : offAt (innerValues width height xPixels yPixels)
        (cellIndexAt width height xPixels yPixels x y) + i'
        < innerTotalOf width height xPixels yPixels := by
      have h1 := offAt_add_getD_le_sum (innerValues width height xPixels yPixels)
        (cellIndexAt width height xPixels yPixels x y) hklt
      have h2 := innerValues_sum width height xPixels yPixels hx hy
      omega
    rw [stripeSourceCanvas_in_rect _ _ _ _ _ _ (by omega) hilt]
  have hpx : srcOver p transparent = p := by
    rw [srcOver_onto_blank p, if_neg hpa]
  unfold cellAverageAt
  have hcongr : regionBytes
      (stripeCanvasAt (fun _ _ => p) width height xPixels yPixels x y) 0
      (offAt (innerValues width height xPixels yPixels)
        (cellIndexAt width height xPixels yPixels x y))
      ((outerValues width height xPixels yPixels).getD
        (stripeIndexAt width height xPixels yPixels x y) 0)
      ((innerValues width height xPixels yPixels).getD
        (cellIndexAt width height xPixels yPixels x y) 0)
      = regionBytes (fun _ _ => p) 0
        (offAt (innerValues width height xPixels yPixels)
          (cellIndexAt width height xPixels yPixels x y))
        ((outerValues width height xPixels yPixels).getD
          (stripeIndexAt width height xPixels yPixels x y) 0)
        ((innerValues width height xPixels yPixels).getD
          (cellIndexAt width height xPixels yPixels x y) 0) := by
    apply regionBytes_congr
    intro o' i' ho' hi'
    rw [hinrect o' i' ho' hi', hpx]
  rw [hcongr]
  set oLen := (outerValues width height xPixels yPixels).getD
    (stripeIndexAt width height xPixels yPixels x y) 0 with hoLen
  set iLen := (innerValues width height xPixels yPixels).getD
    (cellIndexAt width height xPixels yPixels x y) 0 with hiLen
  set iOff := offAt (innerValues width height xPixels yPixels)
    (cellIndexAt width height xPixels yPixels x y) with hiOff
  have hall : ∀ q ∈ regionPixels (fun _ _ => p) 0 iOff oLen iLen, q = p := by
    intro q hq
    obtain ⟨o', i', _, _, hqeq⟩ := mem_regionPixels _ _ _ _ _ q hq
    exact hqeq
  have hlen : (regionPixels (fun _ _ => p) 0 iOff oLen iLen).length = oLen * iLen :=
    length_regionPixels _ _ _ _ _
  have hrepl2 : regionPixels (fun _ _ => p) 0 iOff oLen iLen
      = List.replicate (oLen * iLen) p := by
    rw [← hlen]
    exact List.eq_replicate_of_mem hall
  have hn : 1 ≤ oLen * iLen := by
    have h1 := outerValues_getD_pos width height xPixels yPixels hx hxw hy hyh _ htlt
    have h2 := innerValues_getD_pos width height xPixels yPixels hx hxw hy hyh _ hklt
    rw [← hoLen] at h1
    rw [← hiLen] at h2
    exact Nat.one_le_iff_ne_zero.mpr (Nat.mul_ne_zero (by omega) (by omega))
  have hbytes : regionBytes (fun _ _ => p) 0 iOff oLen iLen
      = (regionPixels (fun _ _ => p) 0 iOff oLen iLen).flatMap
          (fun q => [q.r, q.g, q.b, q.a]) := rfl
  rw [hbytes, getSingleRGBA_eq_means, hrepl2]
  simp only [List.map_replicate, List.sum_replicate, List.length_replicate,
    smul_eq_mul]
  rw [Nat.mul_div_cancel_left p.r (by omega), Nat.mul_div_cancel_left p.g (by omega),
    Nat.mul_div_cancel_left p.b (by omega), Nat.mul_div_cancel_left p.a (by omega)]

/-- All channels of every pixel fit in one byte. -/
def byteBounded (cv : Canvas) : Prop :=
  ∀ o i, (cv o i).r ≤ 255 ∧ (cv o i).g ≤ 255 ∧ (cv o i).b ≤ 255 ∧ (cv o i).a ≤ 255

theorem transparent_bounded :
    transparent.r ≤ 255 ∧ transparent.g ≤ 255 ∧ transparent.b ≤ 255
      ∧ transparent.a ≤ 255 := by
  refine ⟨?_, ?_, ?_, ?_⟩ <;> decide

theorem sourceOuterInner_bounded (src : Canvas) (b : Bool) (h : byteBounded src) :
    byteBounded (sourceOuterInner src b) := by
  intro o i
  unfold sourceOuterInner
  cases b
  · rw [if_neg (by simp)]
    exact h o i
  · rw [if_pos rfl]
    exact h i o

theorem stripeCanvasAt_bounded (src : Canvas) (width height xPixels yPixels x y : ℕ)
    (hbb : byteBounded src) :
    byteBounded (stripeCanvasAt src width height xPixels yPixels x y) := by
  intro o i
  unfold stripeCanvasAt
  rw [stripeSourceCanvas_pixel]
  have hsb := sourceOuterInner_bounded src (shouldAllocateByRows xPixels yPixels) hbb
  set bm := stripeBitmap (sourceOuterInner src (shouldAllocateByRows xPixels yPixels))
    (innerTotalOf width height xPixels yPixels)
    (offAt (outerValues width height xPixels yPixels)
      (stripeIndexAt width height xPixels yPixels x y))
    ((outerValues width height xPixels yPixels).getD
      (stripeIndexAt width height xPixels yPixels x y) 0) with hbm
  have hbmb : bm o i = transparent
      ∨ ∃ o' i', bm o i = sourceOuterInner src (shouldAllocateByRows xPixels yPixels) o' i' := by
    rw [hbm]
    unfold stripeBitmap
    by_cases hc : o < (outerValues width height xPixels yPixels).getD
        (stripeIndexAt width height xPixels yPixels x y) 0
      ∧ i < innerTotalOf width height xPixels yPixels
    · right
      rw [if_pos hc]
      exact ⟨_, _, rfl⟩
    · left
      rw [if_neg hc]
  have hbmbound : (bm o i).r ≤ 255 ∧ (bm o i).g ≤ 255 ∧ (bm o i).b ≤ 255
      ∧ (bm o i).a ≤ 255 := by
    rcases hbmb with h | ⟨o', i', h⟩
    · rw [h]
      exact transparent_bounded
    · rw [h]
      exact hsb o' i'
  rw [srcOver_onto_blank]
  by_cases ha : (bm o i).a = 0
  · rw [if_pos ha]
    exact transparent_bounded
  · rw [if_neg ha]
    exact hbmbound

theorem cellAverageAt_bounds (src : Canvas) (width height xPixels yPixels x y : ℕ)
    (hbb : byteBounded src) :
    (cellAverageAt src width height xPixels yPixels x y).1 ≤ 255 ∧
    (cellAverageAt src width height xPixels yPixels x y).2.1 ≤ 255 ∧
    (cellAverageAt src width height xPixels yPixels x y).2.2.1 ≤ 255 ∧
    (cellAverageAt src width height xPixels yPixels x y).2.2.2 ≤ 255 := by
  have hcb := stripeCanvasAt_bounded src width height xPixels yPixels x y hbb
  unfold cellAverageAt
  set cvS := stripeCanvasAt src width height xPixels yPixels x y with hcvS
  set iOff := offAt (innerValues width height xPixels yPixels)
    (cellIndexAt width height xPixels yPixels x y) with hiOff
  set oLen := (outerValues width height xPixels yPixels).getD
    (stripeIndexAt width height xPixels yPixels x y) 0 with hoLen
  set iLen := (innerValues width height xPixels yPixels).getD
    (cellIndexAt width height xPixels yPixels x y) 0 with hiLen
  have hbytes : regionBytes cvS 0 iOff oLen iLen
      = (regionPixels cvS 0 iOff oLen iLen).flatMap
          (fun q => [q.r, q.g, q.b, q.a]) := rfl
  rw [hbytes, getSingleRGBA_eq_means]
  dsimp only
  refine ⟨?_, ?_, ?_, ?_⟩
  · have hball : ∀ v ∈ List.map RGBA.r (regionPixels cvS 0 iOff oLen iLen), v ≤ 255 := by
      intro v hv
      obtain ⟨q, hq, rfl⟩ := List.mem_map.mp hv
      obtain ⟨o', i', _, _, hqe⟩ := mem_regionPixels _ _ _ _ _ q hq
      rw [hqe]
      exact (hcb _ _).1
    have h := mean_le_of_bounded _ 255 hball
    rw [List.length_map] at h
    exact h
  · have hball : ∀ v ∈ List.map RGBA.g (regionPixels cvS 0 iOff oLen iLen), v ≤ 255 := by
      intro v hv
      obtain ⟨q, hq, rfl⟩ := List.mem_map.mp hv
      obtain ⟨o', i', _, _, hqe⟩ := mem_regionPixels _ _ _ _ _ q hq
      rw [hqe]
      exact (hcb _ _).2.1
    have h := mean_le_of_bounded _ 255 hball
    rw [List.length_map] at h
    exact h
  · have hball : ∀ v ∈ List.map RGBA.b (regionPixels cvS 0 iOff oLen iLen), v ≤ 255 := by
      intro v hv
      obtain ⟨q, hq, rfl⟩ := List.mem_map.mp hv
      obtain ⟨o', i', _, _, hqe⟩ := mem_regionPixels _ _ _ _ _ q hq
      rw [hqe]
      exact (hcb _ _).2.2.1
    have h := mean_le_of_bounded _ 255 hball
    rw [List.length_map] at h
    exact h
  · have hball : ∀ v ∈ List.map RGBA.a (regionPixels cvS 0 iOff oLen iLen), v ≤ 255 := by
      intro v hv
      obtain ⟨q, hq, rfl⟩ := List.mem_map.mp hv
      obtain ⟨o', i', _, _, hqe⟩ := mem_regionPixels _ _ _ _ _ q hq
      rw [hqe]
      exact (hcb _ _).2.2.2
    have h := mean_le_of_bounded _ 255 hball
    rw [List.length_map] at h
    exact h

/-- **C3, counterexample**: a 1x1 source with pixel `(10, 20, 30, 128)`
pixelated at `(1, 1)` yields the output pixel `(10, 20, 30, 255)` — the RGB
channels are the averaged ones, but the alpha is forced opaque by the
`rgba()` alpha-slot scale, so the output pixel does not equal the cell's
averaged color `(10, 20, 30, 128)` as the claim states. -/
theorem cell_flatness_alpha_counterexample :
    finalCanvas (fun _ _ => (⟨10, 20, 30, 128⟩ : RGBA)) 1 1 1 1 false [0] 0 0
      = ⟨10, 20, 30, 255⟩ ∧
    cellAverageAt (fun _ _ => (⟨10, 20, 30, 128⟩ : RGBA)) 1 1 1 1 0 0
      = (10, 20, 30, 128) ∧
    (⟨10, 20, 30, 255⟩ : RGBA) ≠ ⟨10, 20, 30, 128⟩ := by
  have havg := cellAverageAt_const ⟨10, 20, 30, 128⟩ (by decide) 1 1 1 1 0 0
    (by decide) (by decide) (by decide) (by decide) (by decide) (by decide)
  refine ⟨?_, havg, by decide⟩
  rw [finalCanvas_painted (fun _ _ => (⟨10, 20, 30, 128⟩ : RGBA)) 1 1 1 1 false
    (by decide) (by decide) (by decide) (by decide) [0] (by decide) 0 0
    (by decide) (by decide) (by rw [havg]; decide)]
  rw [havg]
  rw [fillColor_false_eval 10 20 30 128 (by decide) (by decide) (by decide)]
  decide

/-- **C3, amended**: the stripe worker reduces each cell region to one RGBA
value by summing every channel over the region's pixels and flooring the
quotient by the pixel count (an unweighted arithmetic mean), and every
destination pixel of a cell whose averaged alpha is at least 1 equals
`(r̄, ḡ, b̄, 255)` — the averaged channels with the alpha forced fully
opaque by the `rgba()` alpha-slot scale (a cell with averaged alpha 0 is
left unpainted). -/
theorem cell_mean_and_painted_flatness :
    (∀ (cv : Canvas) (o0 i0 oLen iLen : ℕ),
      getSingleRGBA (regionBytes cv o0 i0 oLen iLen)
        = (((regionPixels cv o0 i0 oLen iLen).map RGBA.r).sum / (oLen * iLen),
           ((regionPixels cv o0 i0 oLen iLen).map RGBA.g).sum / (oLen * iLen),
           ((regionPixels cv o0 i0 oLen iLen).map RGBA.b).sum / (oLen * iLen),
           ((regionPixels cv o0 i0 oLen iLen).map RGBA.a).sum / (oLen * iLen))) ∧
    (∀ (src : Canvas) (width height xPixels yPixels : ℕ) (order : List ℕ) (x y : ℕ),
      1 ≤ xPixels → xPixels ≤ width → 1 ≤ yPixels → yPixels ≤ height →
      byteBounded src →
      order.Perm (List.range (stripeCount width height xPixels yPixels)) →
      x < width → y < height →
      1 ≤ (cellAverageAt src width height xPixels yPixels x y).2.2.2 →
      finalCanvas src width height xPixels yPixels false order x y
        = ⟨(cellAverageAt src width height xPixels yPixels x y).1,
           (cellAverageAt src width height xPixels yPixels x y).2.1,
           (cellAverageAt src width height xPixels yPixels x y).2.2.1, 255⟩) := by
  constructor
  · intro cv o0 i0 oLen iLen
    have hbytes : regionBytes cv o0 i0 oLen iLen
        = (regionPixels cv o0 i0 oLen iLen).flatMap
            (fun q => [q.r, q.g, q.b, q.a]) := rfl
    rw [hbytes, getSingleRGBA_eq_means, length_regionPixels]
  · intro src width height xPixels yPixels order x y hx hxw hy hyh hbb hperm hxb
      hyb hpaint
    rw [finalCanvas_painted src width height xPixels yPixels false hx hxw hy hyh
      order hperm x y hxb hyb hpaint]
    have hbnd := cellAverageAt_bounds src width height xPixels yPixels x y hbb
    rw [fillColor_false_eval _ _ _ _ hbnd.1 hbnd.2.1 hbnd.2.2.1]
    rw [if_neg (by omega)]

/-- Witness for `cell_mean_and_painted_flatness` on a constant 1x1 source. -/
theorem cell_mean_and_painted_flatness_witness :
    finalCanvas (fun _ _ => (⟨10, 20, 30, 128⟩ : RGBA)) 1 1 1 1 false [0] 0 0
      = ⟨(cellAverageAt (fun _ _ => (⟨10, 20, 30, 128⟩ : RGBA)) 1 1 1 1 0 0).1,
         (cellAverageAt (fun _ _ => (⟨10, 20, 30, 128⟩ : RGBA)) 1 1 1 1 0 0).2.1,
         (cellAverageAt (fun _ _ => (⟨10, 20, 30, 128⟩ : RGBA)) 1 1 1 1 0 0).2.2.1,
         255⟩ :=
  cell_mean_and_painted_flatness.2 (fun _ _ => (⟨10, 20, 30, 128⟩ : RGBA))
    1 1 1 1 [0] 0 0 (by decide) (by decide) (by decide) (by decide)
    (fun _ _ => show (10 : ℕ) ≤ 255 ∧ (20 : ℕ) ≤ 255 ∧ (30 : ℕ) ≤ 255 ∧
      (128 : ℕ) ≤ 255 from by decide)
    (by decide) (by decide) (by decide)
    (by
      rw [cellAverageAt_const ⟨10, 20, 30, 128⟩ (by decide) 1 1 1 1 0 0
        (by decide) (by decide) (by decide) (by decide) (by decide) (by decide)]
      decide)

/-- **C4, counterexample**: the worker does not floor the luminance — the
canvas rounds the interpolated double — and the averaged alpha is not
kept: a 1x1 source `(0, 1, 0, 255)` has luminance `0.587` (whose floor is
0), yet the grayscale output pixel is `(1, 1, 1, 255)`. Moreover with a
1x2 source whose pixels are `(200, 0, 0, 1)` and `(0, 0, 0, 0)` the
cell's averaged alpha is 0, the cell is left unpainted, and the output
pixel `(200, 0, 0, 1)` violates `R = G = B` even under the grayscale
option. -/
theorem grayscale_double_luma_counterexample :
    finalCanvas (fun _ _ => (⟨0, 1, 0, 255⟩ : RGBA)) 1 1 1 1 true [0] 0 0
      = ⟨1, 1, 1, 255⟩ ∧
    (⟨1, 1, 1, 255⟩ : RGBA) ≠ ⟨0, 0, 0, 255⟩ ∧
    ⌊luminance 0 1 0⌋₊ = 0 ∧
    finalCanvas (fun _ y => if y = 0 then ⟨200, 0, 0, 1⟩ else ⟨0, 0, 0, 0⟩)
      1 2 1 1 true [0] 0 0 = ⟨200, 0, 0, 1⟩ ∧
    (⟨200, 0, 0, 1⟩ : RGBA).r ≠ (⟨200, 0, 0, 1⟩ : RGBA).g := by
  have havg := cellAverageAt_const ⟨0, 1, 0, 255⟩ (by decide) 1 1 1 1 0 0
    (by decide) (by decide) (by decide) (by decide) (by decide) (by decide)
  refine ⟨?_, by decide, ?_, ?_, by decide⟩
  · rw [finalCanvas_painted (fun _ _ => (⟨0, 1, 0, 255⟩ : RGBA)) 1 1 1 1 true
      (by decide) (by decide) (by decide) (by decide) [0] (by decide) 0 0
      (by decide) (by decide) (by rw [havg]; decide)]
    rw [havg]
    rw [fillColor_true_eval 0 1 0 255]
    rw [luminanceJS_0_1_0, cssChannel_lit587]
    decide
  · rw [luminance_eq_div]
    rw [show ((299 * 0 + 587 * 1 + 114 * 0 : ℕ) : ℚ) / 1000
        = ((587 : ℕ) : ℚ) / ((1000 : ℕ) : ℚ) from by norm_num]
    rw [Nat.floor_div_nat, Nat.floor_natCast]
  · set src2 : Canvas := fun _ y => if y = 0 then ⟨200, 0, 0, 1⟩ else ⟨0, 0, 0, 0⟩
      with hsrc2
    rw [finalCanvas_single_column src2 2 (by decide)
      (by
        intro o i
        show (if i = 0 then (⟨200, 0, 0, 1⟩ : RGBA) else ⟨0, 0, 0, 0⟩).a ≤ 255
        by_cases h : i = 0
        · rw [if_pos h]
          decide
        · rw [if_neg h]
          decide)
      true 0 (by decide)]
    have hs00 : src2 0 0 = ⟨200, 0, 0, 1⟩ := rfl
    have hnorm0 : srcOver (src2 0 0) transparent = ⟨200, 0, 0, 1⟩ := by
      rw [hs00, srcOver_onto_blank, if_neg (by decide)]
    have hnorm1 : srcOver (src2 0 1) transparent = transparent := by
      rw [show src2 0 1 = ⟨0, 0, 0, 0⟩ from rfl, srcOver_onto_blank, if_pos rfl]
    have hpix : regionPixels (fun o i => srcOver (src2 o i) transparent) 0 0 1 2
        = [srcOver (src2 0 0) transparent, srcOver (src2 0 1) transparent] := rfl
    have hreg : regionBytes (fun o i => srcOver (src2 o i) transparent) 0 0 1 2
        = [200, 0, 0, 1, 0, 0, 0, 0] := by
      unfold regionBytes
      rw [hpix, hnorm0, hnorm1]
      rfl
    have hcell : cellColor true (fun o i => srcOver (src2 o i) transparent) 1 0 2
        = fillColor true 100 0 0 0 := by
      unfold cellColor
      rw [hreg]
      rfl
    rw [hcell, hnorm0]
    have hca : (fillColor true 100 0 0 0).a = 0 := by
      rw [fillColor_alpha]
      norm_num
    rw [srcOver_transparent_src _ _ hca, if_neg (by decide)]

/-- **C4, amended**: when grayscale is set, every painted cell (averaged
alpha at least 1) is filled with `R = G = B` equal to the worker's
luminance `0.299*r̄ + 0.587*ḡ + 0.114*b̄` — computed in IEEE-754 doubles
and interpolated unrounded, so the canvas rounds the double to the nearest
byte — and painted fully opaque. The double computation differs from
rounding the exact luminance: at averaged channels `(0, 36, 12)` the exact
value is `22.5`, which rounds to 23, but the double is
`22.499999999999996` and the painted byte is 22. A cell with averaged
alpha 0 is left unpainted and keeps its source pixels, which need not
satisfy `R = G = B`. -/
theorem grayscale_double_luma :
    (∀ (src : Canvas) (width height xPixels yPixels : ℕ) (order : List ℕ) (x y : ℕ),
      1 ≤ xPixels → xPixels ≤ width → 1 ≤ yPixels → yPixels ≤ height →
      order.Perm (List.range (stripeCount width height xPixels yPixels)) →
      x < width → y < height →
      1 ≤ (cellAverageAt src width height xPixels yPixels x y).2.2.2 →
      finalCanvas src width height xPixels yPixels true order x y
        = ⟨cssChannel (luminanceJS (cellAverageAt src width height xPixels yPixels x y).1
             (cellAverageAt src width height xPixels yPixels x y).2.1
             (cellAverageAt src width height xPixels yPixels x y).2.2.1),
           cssChannel (luminanceJS (cellAverageAt src width height xPixels yPixels x y).1
             (cellAverageAt src width height xPixels yPixels x y).2.1
             (cellAverageAt src width height xPixels yPixels x y).2.2.1),
           cssChannel (luminanceJS (cellAverageAt src width height xPixels yPixels x y).1
             (cellAverageAt src width height xPixels yPixels x y).2.1
             (cellAverageAt src width height xPixels yPixels x y).2.2.1), 255⟩) ∧
    cssChannel (luminanceJS 0 36 12) = 22 ∧
    cssChannel (luminance 0 36 12) = 23 ∧
    luminance 0 36 12 = 45 / 2 := by
  refine ⟨?_, ?_, ?_, ?_⟩
  · intro src width height xPixels yPixels order x y hx hxw hy hyh hperm hxb
      hyb hpaint
    rw [finalCanvas_painted src width height xPixels yPixels true hx hxw hy hyh
      order hperm x y hxb hyb hpaint]
    rw [fillColor_true_eval]
    rw [if_neg (by omega)]
  · rw [luminanceJS_0_36_12]
    exact cssChannel_lum_0_36_12
  · rw [cssChannel_luminance 0 36 12 (by decide) (by decide) (by decide)]
    decide
  · unfold luminance
    push_cast
    norm_num

/-- Witness for `grayscale_double_luma` on a constant 1x1 source
`(0, 36, 12, 255)`. -/
theorem grayscale_double_luma_witness :
    cssChannel (luminanceJS 0 36 12) = 22 ∧
    finalCanvas (fun _ _ => (⟨0, 36, 12, 255⟩ : RGBA)) 1 1 1 1 true [0] 0 0
      = ⟨cssChannel (luminanceJS
             (cellAverageAt (fun _ _ => (⟨0, 36, 12, 255⟩ : RGBA)) 1 1 1 1 0 0).1
             (cellAverageAt (fun _ _ => (⟨0, 36, 12, 255⟩ : RGBA)) 1 1 1 1 0 0).2.1
             (cellAverageAt (fun _ _ => (⟨0, 36, 12, 255⟩ : RGBA)) 1 1 1 1 0 0).2.2.1),
         cssChannel (luminanceJS
             (cellAverageAt (fun _ _ => (⟨0, 36, 12, 255⟩ : RGBA)) 1 1 1 1 0 0).1
             (cellAverageAt (fun _ _ => (⟨0, 36, 12, 255⟩ : RGBA)) 1 1 1 1 0 0).2.1
             (cellAverageAt (fun _ _ => (⟨0, 36, 12, 255⟩ : RGBA)) 1 1 1 1 0 0).2.2.1),
         cssChannel (luminanceJS
             (cellAverageAt (fun _ _ => (⟨0, 36, 12, 255⟩ : RGBA)) 1 1 1 1 0 0).1
             (cellAverageAt (fun _ _ => (⟨0, 36, 12, 255⟩ : RGBA)) 1 1 1 1 0 0).2.1
             (cellAverageAt (fun _ _ => (⟨0, 36, 12, 255⟩ : RGBA)) 1 1 1 1 0 0).2.2.1),
         255⟩ :=
  ⟨grayscale_double_luma.2.1,
   grayscale_double_luma.1 (fun _ _ => (⟨0, 36, 12, 255⟩ : RGBA)) 1 1 1 1 [0] 0 0
     (by decide) (by decide) (by decide) (by decide)
     (by decide) (by decide) (by decide)
     (by
       rw [cellAverageAt_const ⟨0, 36, 12, 255⟩ (by decide) 1 1 1 1 0 0
         (by decide) (by decide) (by decide) (by decide) (by decide) (by decide)]
       decide)⟩

/-- **C7**: the final raster is a deterministic function of the source,
grid, and grayscale flag. For any two all-success scheduler runs of the
same call — with arbitrary worker limits and arbitrary interleavings —
that both drain the queue, drawing each run's completed stripes in its
own completion order yields the same pixel at every in-bounds coordinate.
In particular `concurrencyLimit = 1` and `concurrencyLimit = stripeCount`
give byte-identical rasters, and re-running with identical parameters is
idempotent. -/
theorem final_raster_deterministic
    (src : Canvas) (width height xPixels yPixels : ℕ) (gs : Bool)
    (hx : 1 ≤ xPixels) (hxw : xPixels ≤ width)
    (hy : 1 ≤ yPixels) (hyh : yPixels ≤ height)
    (outcomes : ℕ → TaskOutcome)
    (hall : ∀ t, outcomes t = TaskOutcome.success)
    (m₁ m₂ : ℕ) (sched₁ sched₂ : List ℕ)
    (hdone₁ : runDone (runSteps outcomes sched₁
      (initSched (stripeCount width height xPixels yPixels) m₁)))
    (hdone₂ : runDone (runSteps outcomes sched₂
      (initSched (stripeCount width height xPixels yPixels) m₂)))
    (x y : ℕ) (hxb : x < width) (hyb : y < height) :
    finalCanvas src width height xPixels yPixels gs
      (runSteps outcomes sched₁
        (initSched (stripeCount width height xPixels yPixels) m₁)).draws x y
      = finalCanvas src width height xPixels yPixels gs
          (runSteps outcomes sched₂
            (initSched (stripeCount width height xPixels yPixels) m₂)).draws x y := by
  have hn : 1 ≤ stripeCount width height xPixels yPixels := by
    rw [stripeCount_eq_min]
    omega
  have hperm₁ := draws_perm_of_success_done outcomes
    (stripeCount width height xPixels yPixels) m₁ sched₁ hn hall hdone₁
  have hperm₂ := draws_perm_of_success_done outcomes
    (stripeCount width height xPixels yPixels) m₂ sched₂ hn hall hdone₂
  rw [finalCanvas_closed_form src width height xPixels yPixels gs hx hxw hy hyh
    _ hperm₁ x y hxb hyb]
  rw [finalCanvas_closed_form src width height xPixels yPixels gs hx hxw hy hyh
    _ hperm₂ x y hxb hyb]

/-- Witness for `final_raster_deterministic`: a 2x2 source pixelated at
`(2, 2)` with one worker stepping `[0, 0]` and with two workers stepping
`[1, 0]` agrees at pixel `(0, 1)`. -/
theorem final_raster_deterministic_witness :
    finalCanvas (fun _ _ => (⟨5, 6, 7, 255⟩ : RGBA)) 2 2 2 2 false
      (runSteps (fun _ => TaskOutcome.success) [0, 0]
        (initSched (stripeCount 2 2 2 2) 1)).draws 0 1
      = finalCanvas (fun _ _ => (⟨5, 6, 7, 255⟩ : RGBA)) 2 2 2 2 false
          (runSteps (fun _ => TaskOutcome.success) [1, 0]
            (initSched (stripeCount 2 2 2 2) 2)).draws 0 1 :=
  final_raster_deterministic (fun _ _ => (⟨5, 6, 7, 255⟩ : RGBA)) 2 2 2 2 false
    (by decide) (by decide) (by decide) (by decide)
    (fun _ => TaskOutcome.success) (fun _ => rfl) 1 2 [0, 0] [1, 0]
    (by constructor <;> decide) (by constructor <;> decide)
    0 1 (by decide) (by decide)
